import Mathlib

/-!
A shallow embedding of `scripts/fetch_cars.py` (repository Koren-a11y/FindCar).

Conventions of the embedding:
* Python `str` is Lean `String`; machine-independent `int` is Lean `Int`
  (Python integers are unbounded).
* `str.lower()` is modelled on ASCII letters (the repository only compares
  ASCII keywords and tag names).
* CPython `float` values are modelled exactly as sign/significand/exponent
  triples (IEEE binary64, including infinities, NaN and subnormals), with
  correctly rounded decimal-string conversion and multiplication, all in
  integer arithmetic.
* Fallible Python code returns `Except PyErr _`; an uncaught exception is an
  `Except.error`.
* `json.loads` is an external library routine; it is abstracted as a
  parameter `loads : String → Option Json` (`none` models a
  `json.JSONDecodeError`).  The stdlib `html.parser.HTMLParser` tokenizer is
  likewise external: markup is abstracted as the list of start-tag /
  data / end-tag events it delivers to the handlers defined in the source's
  `JsonLdExtractor`, which are modelled faithfully.
-/

namespace FindCar

/-! ## Python string primitives -/

/-- The characters Python's `str.strip()` / regex `\s` treat as whitespace:
ASCII whitespace plus the Unicode whitespace code points. -/
def pyIsSpace (c : Char) : Bool :=
  c = ' ' || c = '\t' || c = '\n' || c = '\r' || c = '\x0b' || c = '\x0c' ||
  c = '\x1c' || c = '\x1d' || c = '\x1e' || c = '\x1f' || c = '\x85' ||
  c = '\xa0' || c = '\u1680' ||
  ('\u2000' ≤ c && c ≤ '\u200a') ||
  c = '\u2028' || c = '\u2029' || c = '\u202f' || c = '\u205f' || c = '\u3000'

/-- `str.lower()`, modelled on ASCII letters. -/
def pyLower (s : String) : String := ⟨s.data.map Char.toLower⟩

/-- `⌊log₂ n⌋` by fuelled structural recursion (kernel-reducible). -/
def log2fuel : Nat → Nat → Nat
  | 0, _ => 0
  | f + 1, n => if 2 ≤ n then log2fuel f (n / 2) + 1 else 0

def natLog2 (n : Nat) : Nat := log2fuel n n

lemma log2fuel_bounds : ∀ (f n : Nat), 1 ≤ n → n ≤ f →
    2 ^ log2fuel f n ≤ n ∧ n < 2 ^ (log2fuel f n + 1) := by
  intro f
  induction f with
  | zero => intro n h1 h2; omega
  | succ f ih =>
    intro n h1 h2
    simp only [log2fuel]
    by_cases h : 2 ≤ n
    · rw [if_pos h]
      have hd1 : 1 ≤ n / 2 := by omega
      have hd2 : n / 2 ≤ f := by omega
      rcases ih (n / 2) hd1 hd2 with ⟨b1, b2⟩
      constructor
      · rw [pow_succ]
        have : 2 ^ log2fuel f (n / 2) * 2 ≤ (n / 2) * 2 := by omega
        omega
      · rw [pow_succ, pow_succ] at *
        omega
    · rw [if_neg h]
      constructor
      · simpa using h1
      · have : n < 2 := by omega
        simpa using this

lemma natLog2_le {n : Nat} (h : 1 ≤ n) : 2 ^ natLog2 n ≤ n :=
  (log2fuel_bounds n n h le_rfl).1

lemma natLog2_lt {n : Nat} (h : 1 ≤ n) : n < 2 ^ (natLog2 n + 1) :=
  (log2fuel_bounds n n h le_rfl).2

def dropLeadingWs : List Char → List Char
  | [] => []
  | c :: r => if pyIsSpace c then dropLeadingWs r else c :: r

/-- `str.strip()` on the underlying character list. -/
def pyStripL (cs : List Char) : List Char :=
  (dropLeadingWs (dropLeadingWs cs).reverse).reverse

/-- `str.strip()`. -/
def pyStrip (s : String) : String := ⟨pyStripL s.data⟩

def squeezeSpaces : List Char → List Char
  | [] => []
  | [c] => [c]
  | a :: b :: r =>
    if a = ' ' && b = ' ' then squeezeSpaces (b :: r) else a :: squeezeSpaces (b :: r)

/-- `re.sub(r"\s+", " ", s)`: every maximal whitespace run becomes one space. -/
def collapseWs (s : String) : String :=
  ⟨squeezeSpaces (s.data.map (fun c => if pyIsSpace c then ' ' else c))⟩

def listStartsWith : List Char → List Char → Bool
  | [], _ => true
  | _ :: _, [] => false
  | p :: ps, c :: cs => p = c && listStartsWith ps cs

def listContainsL (pat : List Char) : List Char → Bool
  | [] => pat.isEmpty
  | c :: cs => listStartsWith pat (c :: cs) || listContainsL pat cs

/-- Python's substring test `pat in hay`. -/
def strContains (hay pat : String) : Bool := listContainsL pat.data hay.data

def natDigitChar (n : Nat) : Char := Char.ofNat (48 + n)

def natReprAux : Nat → Nat → List Char → List Char
  | 0, _, acc => acc
  | f + 1, n, acc =>
    if n < 10 then natDigitChar n :: acc
    else natReprAux f (n / 10) (natDigitChar (n % 10) :: acc)

/-- Decimal representation of a natural number (Python `str(n)` for `n ≥ 0`). -/
def natRepr (n : Nat) : String := ⟨natReprAux (n + 1) n []⟩

/-- Python `str(i)` for an `int`. -/
def pyIntRepr (i : Int) : String :=
  if i < 0 then "-" ++ natRepr i.natAbs else natRepr i.natAbs

def insertCommasRev : List Char → List Char
  | a :: b :: c :: d :: r => a :: b :: c :: ',' :: insertCommasRev (d :: r)
  | l => l

/-- Python's thousands-grouped format `f"{i:,}"`. -/
def commaGroup (i : Int) : String :=
  ⟨(if i < 0 then ['-'] else []) ++ (insertCommasRev (natRepr i.natAbs).data.reverse).reverse⟩

/-! ## Exceptions that can escape the modelled fragments -/

/-- Python exception classes that the modelled code can raise or catch. -/
inductive PyErr where
  | valueError
  | overflowError
  | attributeError
deriving Repr, DecidableEq

/-! ## The Listing record (dataclass `Listing`) -/

structure Listing where
  title : String
  price_yen : Option Int
  price_label : String
  location : String
  image_url : String
  detail_url : String
  source : String := "carsensor.net"
deriving Repr, DecidableEq

def BASE_URL : String := "https://www.carsensor.net"

/-! ## Deduplication (the `uniq` dict in `scrape`, lines 186–191)

A Python `dict` keyed by strings: assignment to an existing key overwrites the
value in place, a new key is appended; iteration is in insertion order. -/

def dictUpsert {β : Type} (acc : List (String × β)) (k : String) (v : β) :
    List (String × β) :=
  if acc.any (fun p => p.1 = k) then
    acc.map (fun p => if p.1 = k then (k, v) else p)
  else acc ++ [(k, v)]

/-- Build a Python dict (as an ordered association list with unique keys)
from a sequence of key/value assignments. -/
def dictOfPairs {β : Type} (l : List (String × β)) : List (String × β) :=
  l.foldl (fun acc p => dictUpsert acc p.1 p.2) []

/-- The natural key of `scrape`:
`item.detail_url or f"{item.title}-{item.price_label}-{item.location}"`. -/
def keyOf (l : Listing) : String :=
  if l.detail_url = "" then l.title ++ "-" ++ l.price_label ++ "-" ++ l.location
  else l.detail_url

/-- Lines 186–191 of `scrape`: collapse listings into the `uniq` dict and
return its values. -/
def dedupe (listings : List Listing) : List Listing :=
  (listings.foldl (fun acc it => dictUpsert acc (keyOf it) it) []).map Prod.snd

/-- Keys in order of first occurrence (the iteration order of a dict built by
repeated assignment). -/
def firstKeys (ks : List String) : List String :=
  ks.foldl (fun acc k => if acc.any (fun a => a = k) then acc else acc ++ [k]) []

/-- What §4.5 of the spec describes: one listing per natural key, at the
position where the key first occurs, carrying the values of the last listing
with that key. -/
def dedupeSpec (listings : List Listing) : List Listing :=
  (firstKeys (listings.map keyOf)).filterMap
    (fun k => (listings.filter (fun x => keyOf x = k)).getLast?)

/-! ## Filters (`apply_filters`, lines 194–210) -/

def apply_filters (listings : List Listing) (max_price : Option Int)
    (region_keyword : Option String) : List Listing :=
  let filtered := listings
  let filtered :=
    match max_price with
    | none => filtered
    | some mp =>
      filtered.filter (fun it =>
        match it.price_yen with
        | none => true
        | some p => decide (p ≤ mp))
  match region_keyword with
  | none => filtered
  | some kw =>
    if kw = "" then filtered
    else filtered.filter (fun it => strContains (pyLower it.location) (pyLower kw))

/-- The price criterion of §4.6: keep when the price is unknown or at most the
threshold; no threshold keeps everything. -/
def priceOk (max_price : Option Int) (it : Listing) : Bool :=
  match max_price with
  | none => true
  | some mp =>
    match it.price_yen with
    | none => true
    | some p => decide (p ≤ mp)

/-- The region criterion of §4.6: lower-cased substring test; an unset or
empty keyword keeps everything. -/
def regionOk (region_keyword : Option String) (it : Listing) : Bool :=
  match region_keyword with
  | none => true
  | some kw =>
    if kw = "" then true else strContains (pyLower it.location) (pyLower kw)

/-! ## The top level (`main`, lines 225–250)

`main` catches any exception from `scrape` once, records `str(exc)` and
continues with an empty list; the payload is then always constructed and
written.  The timestamp and the file write are I/O outside the model; the
payload construction is modelled in full. -/

structure Query where
  model : String
  color : String
  feature : String
  max_price : Option Int
  region : Option String
deriving Repr, DecidableEq

structure Payload where
  source : String
  query : Query
  error : Option String
  count : Nat
  items : List Listing
deriving Repr, DecidableEq

def SEARCH_URL : String :=
  "https://www.carsensor.net/usedcar/freeword/Honda+N-VAN+%E3%82%BF%E3%83%BC%E3%83%9C+%E3%83%9B%E3%83%AF%E3%82%A4%E3%83%88/index.html"

/-- The body of `main` after argument parsing, as a function of the outcome of
`scrape()` (`Except.error e` models `scrape` raising an exception whose
`str` is `e`). -/
def pyMain (fetched : Except String (List Listing)) (max_price : Option Int)
    (region : Option String) : Payload :=
  let pair :=
    match fetched with
    | .ok l => (l, (none : Option String))
    | .error e => (([] : List Listing), some e)
  let listings := apply_filters pair.1 max_price region
  { source := SEARCH_URL
    query := { model := "Honda N-VAN", color := "white", feature := "turbo"
               max_price := max_price, region := region }
    error := pair.2
    count := listings.length
    items := listings }

/-! ## Basic lemmas about the filters -/

lemma apply_filters_eq_filter (l : List Listing) (m : Option Int)
    (r : Option String) :
    apply_filters l m r = l.filter (fun it => priceOk m it && regionOk r it) := by
  cases m with
  | none =>
    cases r with
    | none => simp [apply_filters, priceOk, regionOk]
    | some kw =>
      by_cases h : kw = "" <;>
        simp [apply_filters, priceOk, regionOk, h]
  | some mp =>
    cases r with
    | none => simp [apply_filters, priceOk, regionOk]
    | some kw =>
      by_cases h : kw = "" <;>
        simp [apply_filters, priceOk, regionOk, h, List.filter_filter,
          Bool.and_comm]

/-! ## CPython floats, modelled as exact IEEE binary64 values

`float` values are sign/significand/exponent triples (value
`(-1)^neg * sig * 2^exp`), infinities, or NaN.  Conversion from a decimal
string and multiplication are correctly rounded (round to nearest, ties to
even), computed in integer arithmetic. -/

inductive PyFloat where
  | finite (neg : Bool) (sig : Nat) (exp : Int)
  | inf (neg : Bool)
  | nan
deriving Repr, DecidableEq

/-- `den * 2^e ≤ num`, for an integer exponent `e` of either sign. -/
def le2pow (den num : Nat) (e : Int) : Bool :=
  if 0 ≤ e then den * 2 ^ e.toNat ≤ num else den ≤ num * 2 ^ (-e).toNat

/-- `⌊log₂ (num / den)⌋` for `num, den ≥ 1`. -/
def floorLog2Rat (num den : Nat) : Int :=
  let cand : Int := (natLog2 num : Int) - (natLog2 den : Int)
  if le2pow den num cand then cand else cand - 1

/-- Round the positive rational `num / den` to the nearest binary64 value
(ties to even) as a significand/exponent pair; `none` on overflow to
infinity, `(0, _)` on underflow to zero.  Subnormals round at the fixed
quantum `2^(-1074)`. -/
def roundPosRat (num den : Nat) : Option (Nat × Int) :=
  if num = 0 then some (0, 0)
  else
    let e := floorLog2Rat num den
    let q : Int := if e < -1022 then -1074 else e - 52
    let nd : Nat × Nat :=
      if 0 ≤ -q then (num * 2 ^ (-q).toNat, den) else (num, den * 2 ^ q.toNat)
    let quo := nd.1 / nd.2
    let rem := nd.1 % nd.2
    let sig :=
      if nd.2 < 2 * rem then quo + 1
      else if 2 * rem = nd.2 then (if quo % 2 = 0 then quo else quo + 1)
      else quo
    let pair : Nat × Int :=
      if q = -1074 then (sig, q)
      else if sig = 2 ^ 53 then (2 ^ 52, q + 1) else (sig, q)
    if 971 < pair.2 then none else some pair

/-- Build a float from a sign and a positive rational; overflow gives the
signed infinity (CPython's `float(string)` returns `inf` on overflow). -/
def mkFinite (neg : Bool) (num den : Nat) : PyFloat :=
  match roundPosRat num den with
  | none => .inf neg
  | some (sig, exp) => .finite neg sig exp

/-- `⌊log₁₀ n⌋` by fuelled structural recursion (kernel-reducible). -/
def log10fuel : Nat → Nat → Nat
  | 0, _ => 0
  | f + 1, n => if 10 ≤ n then log10fuel f (n / 10) + 1 else 0

/-- The number of decimal digits of `m ≥ 1`. -/
def decDigits (m : Nat) : Nat := log10fuel m m + 1

/-- The binary64 value nearest to `(-1)^neg * m * 10^e10`.  The clamps for
astronomically large or small exponents return the value the exact rounding
would (above `10^310` every value rounds to infinity; below
`10^(-324)` every positive value rounds to zero). -/
def floatOfDecimal (neg : Bool) (m : Nat) (e10 : Int) : PyFloat :=
  if m = 0 then .finite neg 0 0
  else if 310 ≤ e10 then .inf neg
  else if e10 + (decDigits m : Int) ≤ -324 then .finite neg 0 0
  else if 0 ≤ e10 then mkFinite neg (m * 10 ^ e10.toNat) 1
  else mkFinite neg m (10 ^ (-e10).toNat)

/-- Multiplication by the exact integer `10000`, correctly rounded. -/
def mulFloat10000 : PyFloat → PyFloat
  | .finite neg sig exp =>
    if 0 ≤ exp then mkFinite neg (sig * 10000 * 2 ^ exp.toNat) 1
    else mkFinite neg (sig * 10000) (2 ^ (-exp).toNat)
  | .inf neg => .inf neg
  | .nan => .nan

/-- Python `int(f)` on a float: truncation toward zero; `OverflowError` on
infinities, `ValueError` on NaN. -/
def truncFloat : PyFloat → Except PyErr Int
  | .finite neg sig exp =>
    let mag : Nat := if 0 ≤ exp then sig * 2 ^ exp.toNat else sig / 2 ^ (-exp).toNat
    .ok (if neg then -(mag : Int) else (mag : Int))
  | .inf _ => .error .overflowError
  | .nan => .error .valueError

def negFloat : PyFloat → PyFloat
  | .finite _ sig exp => .finite true sig exp
  | .inf _ => .inf true
  | .nan => .nan

/-! ### Parsing a Python float literal string -/

def isDigitCh (c : Char) : Bool := '0' ≤ c && c ≤ '9'

def takeDigits : List Char → (List Char × List Char)
  | [] => ([], [])
  | c :: r =>
    if isDigitCh c then
      let p := takeDigits r
      (c :: p.1, p.2)
    else ([], c :: r)

def digitsVal (ds : List Char) : Nat := ds.foldl (fun a c => 10 * a + (c.toNat - 48)) 0

/-- CPython numeric-literal underscores: every `_` must sit between two
digits. -/
def underscoresOk : Option Char → List Char → Bool
  | _, [] => true
  | prev, c :: r =>
    if c = '_' then
      (match prev with
       | some p => isDigitCh p
       | none => false) &&
      (match r with
       | n :: _ => isDigitCh n
       | [] => false) &&
      underscoresOk (some c) r
    else underscoresOk (some c) r

/-- Case-insensitive equality with an ASCII pattern. -/
def ciIs (cs : List Char) (pat : List Char) : Bool :=
  decide (cs.map Char.toLower = pat)

/-- Parse an unsigned decimal literal (digits, optional fraction, optional
exponent) into mantissa and decimal exponent. -/
def parseDecimal (cs : List Char) : Option (Nat × Int) :=
  let p1 := takeDigits cs
  let p2 : List Char × List Char :=
    match p1.2 with
    | c :: r => if c = '.' then takeDigits r else ([], p1.2)
    | [] => ([], p1.2)
  if p1.1.isEmpty && p2.1.isEmpty then none
  else
    let m := digitsVal (p1.1 ++ p2.1)
    let fl : Int := p2.1.length
    match p2.2 with
    | [] => some (m, -fl)
    | e :: r3 =>
      if e = 'e' || e = 'E' then
        let sr : Bool × List Char :=
          match r3 with
          | c :: r4 =>
            if c = '-' then (true, r4)
            else if c = '+' then (false, r4)
            else (false, r3)
          | [] => (false, r3)
        let p3 := takeDigits sr.2
        if p3.1.isEmpty || !p3.2.isEmpty then none
        else
          let ev : Int := digitsVal p3.1
          some (m, (if sr.1 then -ev else ev) - fl)
      else none

/-- Parse the part of a float literal after the optional sign. -/
def parseUnsignedFloat (cs : List Char) : Option PyFloat :=
  if ciIs cs "inf".data || ciIs cs "infinity".data then some (.inf false)
  else if ciIs cs "nan".data then some .nan
  else (parseDecimal cs).map (fun p => floatOfDecimal false p.1 p.2)

/-- CPython `float(s)` on a string: `none` models the `ValueError` of an
unparseable literal. -/
def pyFloatOfString (s : String) : Option PyFloat :=
  let cs := pyStripL s.data
  if underscoresOk none cs then
    match cs.filter (fun c => c ≠ '_') with
    | c :: r =>
      if c = '-' then (parseUnsignedFloat r).map negFloat
      else if c = '+' then parseUnsignedFloat r
      else parseUnsignedFloat (c :: r)
    | [] => parseUnsignedFloat []
  else none

/-- `int(float(s))`: `ValueError` when the literal does not parse (or is
NaN), `OverflowError` on an infinite value. -/
def pyIntFloat (s : String) : Except PyErr Int :=
  match pyFloatOfString s with
  | none => .error .valueError
  | some f => truncFloat f

/-! ## `normalize_price` (lines 60–68)

The two `re.search` patterns `([0-9]+(?:\.[0-9]+)?)\s*万円` and
`([0-9]+)\s*円` are deterministic once unrolled: the digit runs are maximal
(a shorter run would have to be followed by `.`, whitespace or the unit
marker, but is followed by a digit), so the leftmost match is found by
trying the anchored matcher at every suffix. -/

def manMatchAt (cs : List Char) : Option (List Char) :=
  let p1 := takeDigits cs
  if p1.1.isEmpty then none
  else
    let gr : List Char × List Char :=
      match p1.2 with
      | c :: r =>
        if c = '.' then
          let p2 := takeDigits r
          if p2.1.isEmpty then (p1.1, c :: r) else (p1.1 ++ c :: p2.1, p2.2)
        else (p1.1, p1.2)
      | [] => (p1.1, p1.2)
    if listStartsWith ['万', '円'] (dropLeadingWs gr.2) then some gr.1 else none

def searchMan : List Char → Option (List Char)
  | [] => none
  | c :: r =>
    match manMatchAt (c :: r) with
    | some g => some g
    | none => searchMan r

def enMatchAt (cs : List Char) : Option (List Char) :=
  let p1 := takeDigits cs
  if p1.1.isEmpty then none
  else if listStartsWith ['円'] (dropLeadingWs p1.2) then some p1.1
  else none

def searchEn : List Char → Option (List Char)
  | [] => none
  | c :: r =>
    match enMatchAt (c :: r) with
    | some g => some g
    | none => searchEn r

/-- Lines 60–68: strip commas, try the ten-thousand-yen pattern (result
`int(float(g) * 10000)`), then the yen pattern (result `int(g)`), else no
match.  `int(float(g) * 10000)` can raise `OverflowError` for enormous
numerals; that propagates. -/
def normalize_price (text : String) : Except PyErr (Option Int) :=
  let cleaned := text.data.filter (fun c => c ≠ ',')
  match searchMan cleaned with
  | some g =>
    match pyFloatOfString ⟨g⟩ with
    | none => .error .valueError
    | some f => (truncFloat (mulFloat10000 f)).map some
  | none =>
    match searchEn cleaned with
    | some g => .ok (some (digitsVal g))
    | none => .ok none

/-! ## `urllib.parse.urljoin` against the fixed base `BASE_URL`

Modelled from CPython's `urllib/parse.py` (`urlsplit`/`urlparse`/
`urlunsplit`/`urlunparse`/`urljoin`), specialised to the constant base
`https://www.carsensor.net` (scheme `https`, netloc `www.carsensor.net`,
empty path/params/query/fragment).  A bracketed host raises `ValueError`
unless it is a valid IP literal; the model raises for every bracketed host
(valid IPv6 literals are outside the model, as is the NFKC netloc check,
which only fires on exotic non-ASCII netlocs). -/

structure SplitUrl where
  scheme : String
  netloc : String
  path : String
  params : String
  query : String
  fragment : String
deriving Repr, DecidableEq

def isSchemeChar (c : Char) : Bool :=
  c.isAlpha || isDigitCh c || c = '+' || c = '-' || c = '.'

/-- Split at the first `:`; `none` when there is no colon. -/
def findColonSplit : List Char → Option (List Char × List Char)
  | [] => none
  | c :: r =>
    if c = ':' then some ([], r)
    else (findColonSplit r).map (fun p => (c :: p.1, p.2))

/-- `_splitnetloc`: the netloc runs to the first `/`, `?` or `#`. -/
def splitNetlocL : List Char → (List Char × List Char)
  | [] => ([], [])
  | c :: r =>
    if c = '/' || c = '?' || c = '#' then ([], c :: r)
    else
      let p := splitNetlocL r
      (c :: p.1, p.2)

/-- Split at the first occurrence of `ch`; when absent the second component
is empty (for `#`/`?` splitting this yields the same five components). -/
def splitFirstAt (ch : Char) : List Char → (List Char × List Char)
  | [] => ([], [])
  | c :: r =>
    if c = ch then ([], r)
    else
      let p := splitFirstAt ch r
      (c :: p.1, p.2)

/-- `_splitparams` (caller guarantees a `;` is present): split the last path
segment at its first `;`. -/
def splitParamsL (cs : List Char) : (List Char × List Char) :=
  if cs.any (fun c => c = '/') then
    let rs := cs.reverse
    let sp := rs.span (fun c => c ≠ '/')
    let lastSeg := sp.1.reverse
    let pre := sp.2.reverse
    if lastSeg.any (fun c => c = ';') then
      let q := splitFirstAt ';' lastSeg
      (pre ++ q.1, q.2)
    else (cs, [])
  else splitFirstAt ';' cs

/-- The WHATWG leading-control strip and unsafe-byte removal of `urlsplit`. -/
def stripUnsafe (url : String) : List Char :=
  (url.data.dropWhile (fun c => c ≤ '\x20')).filter
    (fun c => !(c = '\t' || c = '\r' || c = '\n'))

/-- Scheme detection of `urlsplit` with default scheme `https`. -/
def schemeSplit (cs : List Char) : String × List Char :=
  match findColonSplit cs with
  | some (bef, aft) =>
    if (match bef with
        | c :: _ => c.isAlpha
        | [] => false) && bef.all isSchemeChar
    then (⟨bef.map Char.toLower⟩, aft)
    else ("https", cs)
  | none => ("https", cs)

/-- Netloc detection: only after a leading `//`. -/
def netlocSplit (cs : List Char) : List Char × List Char :=
  match cs with
  | a :: b :: r2 => if a = '/' && b = '/' then splitNetlocL r2 else ([], cs)
  | _ => ([], cs)

/-- `urlparse(url, 'https')`: scheme detection, netloc, fragment, query and
params extraction, with the WHATWG leading-control strip and unsafe-byte
removal.  `Except.error` models the `ValueError` for a bracketed host. -/
def pyUrlparse (url : String) : Except PyErr SplitUrl :=
  let cs := stripUnsafe url
  let sr := schemeSplit cs
  let nl := netlocSplit sr.2
  if nl.1.any (fun c => c = '[' || c = ']') then .error .valueError
  else
    let fr := splitFirstAt '#' nl.2
    let qr := splitFirstAt '?' fr.1
    let pp : List Char × List Char :=
      if qr.1.any (fun c => c = ';') then splitParamsL qr.1 else (qr.1, [])
    .ok { scheme := sr.1, netloc := ⟨nl.1⟩, path := ⟨pp.1⟩,
          params := ⟨pp.2⟩, query := ⟨qr.2⟩, fragment := ⟨fr.2⟩ }

/-- `s.split('/')` (Python `str.split` with a one-character separator). -/
def splitSlashL : List Char → List (List Char)
  | [] => [[]]
  | c :: r =>
    let res := splitSlashL r
    if c = '/' then [] :: res
    else
      match res with
      | s :: rest => (c :: s) :: rest
      | [] => [[c]]

def splitSlashS (s : String) : List String :=
  (splitSlashL s.data).map (fun l => ⟨l⟩)

/-- `'/'.join(l)`. -/
def joinWith (sep : String) : List String → String
  | [] => ""
  | [x] => x
  | x :: y :: r => x ++ sep ++ joinWith sep (y :: r)

/-- `s.startswith(pre)` (kernel-reducible). -/
def strStartsWith (s pre : String) : Bool := listStartsWith pre.data s.data

def usesNetloc (s : String) : Bool :=
  ["", "ftp", "http", "gopher", "nntp", "telnet", "imap", "wais", "file",
   "mms", "https", "shttp", "snews", "prospero", "rtsp", "rtspu", "rsync",
   "svn", "svn+ssh", "sftp", "nfs", "git", "git+ssh", "ws", "wss"].any
    (fun t => t = s)

def pyUrlunsplit (scheme netloc path query fragment : String) : String :=
  let url := path
  let url :=
    if netloc ≠ "" || (scheme ≠ "" && usesNetloc scheme && !strStartsWith url "//")
    then "//" ++ netloc ++ (if url ≠ "" && !strStartsWith url "/" then "/" ++ url else url)
    else url
  let url := if scheme ≠ "" then scheme ++ ":" ++ url else url
  let url := if query ≠ "" then url ++ "?" ++ query else url
  if fragment ≠ "" then url ++ "#" ++ fragment else url

def pyUrlunparse (scheme netloc path params query fragment : String) : String :=
  pyUrlunsplit scheme netloc
    (if params ≠ "" then path ++ ";" ++ params else path) query fragment

/-- Keep the first and last element, drop empty strings in between
(`segments[1:-1] = filter(None, segments[1:-1])`). -/
def filterMidAux : List String → List String
  | [] => []
  | [x] => [x]
  | x :: y :: r =>
    if x = "" then filterMidAux (y :: r) else x :: filterMidAux (y :: r)

def filterMiddle : List String → List String
  | [] => []
  | [a] => [a]
  | a :: r => a :: filterMidAux r

/-- The `..`/`.` resolution loop of `urljoin`. -/
def resolveSegs (segs : List String) : List String :=
  let res := segs.foldl
    (fun acc seg =>
      if seg = ".." then acc.dropLast
      else if seg = "." then acc
      else acc ++ [seg]) []
  match segs.getLast? with
  | some s => if s = "." || s = ".." then res ++ [""] else res
  | none => res

/-- `urljoin(BASE_URL, url)`.  `Except.error` models a raised `ValueError`. -/
def pyUrljoin (url : String) : Except PyErr String :=
  if url = "" then .ok BASE_URL
  else
    match pyUrlparse url with
    | .error e => .error e
    | .ok u =>
      if u.scheme ≠ "https" then .ok url
      else if u.netloc ≠ "" then
        .ok (pyUrlunparse u.scheme u.netloc u.path u.params u.query u.fragment)
      else if u.path = "" && u.params = "" then
        .ok (pyUrlunparse "https" "www.carsensor.net" "" "" u.query u.fragment)
      else
        let segments :=
          if strStartsWith u.path "/" then splitSlashS u.path
          else filterMiddle ("" :: splitSlashS u.path)
        let joined := joinWith "/" (resolveSegs segments)
        let path2 := if joined = "" then "/" else joined
        .ok (pyUrlunparse "https" "www.carsensor.net" path2 u.params u.query
          u.fragment)

/-! ## JSON values as Python objects

The values `json.loads` can deliver: `None`, booleans, integers, strings,
lists and dicts (a dict is its insertion-ordered key/value sequence; a
duplicate key in the source text keeps the last value at the first
position, which `dictOfPairs` reproduces).  JSON float literals are outside
the model (prices in the wild are integers or strings). -/

inductive Json where
  | null
  | bool (b : Bool)
  | num (n : Int)
  | str (s : String)
  | arr (xs : List Json)
  | obj (kvs : List (String × Json))

/-- Python truthiness of such a value. -/
def pyTruthy : Json → Bool
  | .null => false
  | .bool b => b
  | .num n => decide (n ≠ 0)
  | .str s => decide (s ≠ "")
  | .arr xs => !xs.isEmpty
  | .obj kvs => !(dictOfPairs kvs).isEmpty

def hexDigitCh (n : Nat) : Char :=
  if n < 10 then Char.ofNat (48 + n) else Char.ofNat (87 + n)

def sqChar : Char := Char.ofNat 39

/-- Escape one character inside a Python string repr quoted by `q`
(common escapes and `\xNN` for other controls; printable characters pass
through unchanged). -/
def pyEscChar (q c : Char) : List Char :=
  if c = '\\' then ['\\', '\\']
  else if c = q then ['\\', q]
  else if c = '\t' then ['\\', 't']
  else if c = '\n' then ['\\', 'n']
  else if c = '\r' then ['\\', 'r']
  else if c.toNat < 32 || c.toNat = 127 then
    ['\\', 'x', hexDigitCh (c.toNat / 16 % 16), hexDigitCh (c.toNat % 16)]
  else [c]

/-- Python `repr` of a string: single quotes, unless the string contains a
single quote and no double quote. -/
def pyReprStr (s : String) : String :=
  let hasSq := s.data.any (fun c => c = sqChar)
  let hasDq := s.data.any (fun c => c = '"')
  let q := if hasSq && !hasDq then '"' else sqChar
  ⟨q :: (s.data.flatMap (pyEscChar q)) ++ [q]⟩

mutual

/-- Python `repr` of a loaded JSON value. -/
def pyReprJ : Json → String
  | .null => "None"
  | .bool true => "True"
  | .bool false => "False"
  | .num n => pyIntRepr n
  | .str s => pyReprStr s
  | .arr xs => "[" ++ pyReprList xs ++ "]"
  | .obj kvs => "\x7b" ++ pyReprObj kvs ++ "\x7d"

def pyReprList : List Json → String
  | [] => ""
  | [x] => pyReprJ x
  | x :: y :: r => pyReprJ x ++ ", " ++ pyReprList (y :: r)

def pyReprObj : List (String × Json) → String
  | [] => ""
  | [(k, v)] => pyReprStr k ++ ": " ++ pyReprJ v
  | (k, v) :: y :: r => pyReprStr k ++ ": " ++ pyReprJ v ++ ", " ++ pyReprObj (y :: r)

end

/-- Python `str` of a loaded JSON value (`str` on containers is `repr`;
note `repr` of a dict displays its post-deduplication contents, but
duplicate keys never reach `pyStr` because `Json.obj` stands for an
already-built dict — `dictOfPairs` is applied at every read). -/
def pyStr : Json → String
  | .str s => s
  | j => pyReprJ j

/-- `d.get(k)` on a Python dict built from the key/value sequence `kvs`
(`none` for a missing key; a present key with JSON `null` value yields
`some .null`, indistinguishable from `None` to the caller, which the
call sites reflect). -/
def assocFind : List (String × Json) → String → Option Json
  | [], _ => none
  | (k2, v) :: r, k => if k2 = k then some v else assocFind r k

def jGet (kvs : List (String × Json)) (k : String) : Option Json :=
  assocFind (dictOfPairs kvs) k

/-- `d.values()` of the dict built from `kvs`. -/
def jValues (kvs : List (String × Json)) : List Json :=
  (dictOfPairs kvs).map Prod.snd

/-! ## `JsonLdExtractor` (lines 23–46)

The handlers of the `HTMLParser` subclass, folded over the event stream the
stdlib tokenizer produces from the markup.  (The tokenizer itself is stdlib
code; a self-closing `<script/>` is delivered as a start event followed by
an end event, matching `handle_startendtag`'s default behaviour.) -/

inductive HtmlEvent where
  | startTag (tag : String) (attrs : List (String × Option String))
  | endTag (tag : String)
  | data (s : String)

/-- `handle_starttag`'s attribute handling: lower-case the names into a dict
(last duplicate wins), then `attr_map.get("type") or ""`.  An attribute
without a value is `None`, which the `or` turns into `""`. -/
def typeAttr (attrs : List (String × Option String)) : String :=
  let m := dictOfPairs (attrs.map (fun p => (pyLower p.1, p.2)))
  match m.find? (fun p => p.1 = "type") with
  | some (_, some s) => s
  | _ => ""

structure ExtractorState where
  inJsonLd : Bool
  buf : List String
  blocks : List String

def extractStep (st : ExtractorState) : HtmlEvent → ExtractorState
  | .startTag tag attrs =>
    if pyLower tag = "script" && pyLower (typeAttr attrs) = "application/ld+json"
    then { st with inJsonLd := true, buf := [] }
    else st
  | .data s =>
    if st.inJsonLd then { st with buf := st.buf ++ [s] } else st
  | .endTag tag =>
    if pyLower tag = "script" && st.inJsonLd then
      let raw := pyStrip (String.join st.buf)
      { inJsonLd := false, buf := [],
        blocks := if raw ≠ "" then st.blocks ++ [raw] else st.blocks }
    else st

/-- The `blocks` list after feeding the whole event stream. -/
def extractBlocks (events : List HtmlEvent) : List String :=
  (events.foldl extractStep ⟨false, [], []⟩).blocks

/-! ## `parse_json_ld` (lines 71–138) -/

/-- Lines 82–93: normalise one decoded block into the candidate list.  In
the `itemListElement` wrapper, `x.get("item", x)` can produce non-dict
values (`item.get("name")` then raises `AttributeError`). -/
def candidatesOf : Json → List Json
  | .obj kvs =>
    match jGet kvs "itemListElement" with
    | some (.arr xs) =>
      (xs.filterMap (fun x =>
        match x with
        | .obj m => some (match jGet m "item" with
          | some v => v
          | none => Json.obj m)
        | _ => none))
    | _ => [Json.obj kvs]
  | .arr xs =>
    xs.filterMap (fun x =>
      match x with
      | .obj m => some (Json.obj m)
      | _ => none)
  | _ => []

/-- Python `a or b` for loaded values. -/
def pyOr (a b : Json) : Json := if pyTruthy a then a else b

/-- Lines 105–109: `int(float(str(price)))` with only `ValueError` caught —
an unparseable literal or NaN falls back to `normalize_price`, an infinite
value raises `OverflowError`. -/
def directPrice (s : String) : Except PyErr (Option Int) :=
  match pyFloatOfString s with
  | none => normalize_price s
  | some f =>
    match truncFloat f with
    | .ok n => .ok (some n)
    | .error .valueError => normalize_price s
    | .error e => .error e

/-- Lines 100–113: compute `(price_yen, price_label)` from the `offers`
dict. -/
def priceFields (offers : List (String × Json)) : Except PyErr (Option Int × String) :=
  match jGet offers "price" with
  | none => .ok (none, "")
  | some .null => .ok (none, "")
  | some price =>
    let cur : Json :=
      match jGet offers "priceCurrency" with
      | none => .null
      | some v => v
    match directPrice (pyStr price) with
    | .error e => .error e
    | .ok (some n) => .ok (some n, commaGroup n ++ " 円")
    | .ok none =>
      .ok (none, pyStrip (pyStr price ++ " " ++ pyStr (pyOr cur (Json.str ""))))

/-- Lines 115–117: the location string. -/
def locationOf (m : List (String × Json)) : String :=
  let area := pyOr
    (match jGet m "areaServed" with
     | none => .null
     | some v => v)
    (pyOr
      (match jGet m "address" with
       | none => .null
       | some v => v)
      (Json.str ""))
  match area with
  | .obj kvs =>
    joinWith " " ((jValues kvs).filter pyTruthy |>.map pyStr)
  | a => pyStr a

/-- Line 96: `str(item.get("name", "")).strip()`. -/
def nameStrOf (m : List (String × Json)) : String :=
  pyStrip (pyStr (match jGet m "name" with
    | none => Json.str ""
    | some v => v))

/-- Line 100: the `offers` dict (or `{}` when absent or not a dict). -/
def offersOf (m : List (String × Json)) : List (String × Json) :=
  match jGet m "offers" with
  | some (.obj o) => o
  | _ => []

/-- Lines 119–123: the resolved image URL. -/
def imageResOf (m : List (String × Json)) : Except PyErr String :=
  match jGet m "image" with
  | some (.arr xs) =>
    match xs with
    | [] => .ok ""
    | x :: _ => pyUrljoin (pyStr x)
  | some img => pyUrljoin (pyStr (pyOr img (Json.str "")))
  | none => pyUrljoin (pyStr (pyOr Json.null (Json.str "")))

/-- Line 125: `str(item.get("url") or "")`. -/
def urlStrOf (m : List (String × Json)) : String :=
  pyStr (pyOr
    (match jGet m "url" with
     | none => Json.null
     | some v => v) (Json.str ""))

/-- Lines 95–136: one candidate to an optional listing (`none` = skipped for
an empty title); non-dict candidates raise `AttributeError`. -/
def processItem (item : Json) : Except PyErr (Option Listing) :=
  match item with
  | .obj m =>
    if nameStrOf m = "" then .ok none
    else
      match priceFields (offersOf m) with
      | .error e => .error e
      | .ok pf =>
        match imageResOf m with
        | .error e => .error e
        | .ok image_url =>
          match pyUrljoin (urlStrOf m) with
          | .error e => .error e
          | .ok detail_url =>
            .ok (some { title := nameStrOf m, price_yen := pf.1,
                        price_label := pf.2, location := locationOf m,
                        image_url := image_url, detail_url := detail_url })
  | _ => .error .attributeError

/-- The listings of one decoded block, in order. -/
def listingsOfItems : List Json → Except PyErr (List Listing)
  | [] => .ok []
  | item :: rest =>
    match processItem item with
    | .error e => .error e
    | .ok o =>
      match listingsOfItems rest with
      | .error e => .error e
      | .ok tail => .ok (match o with
        | some l => l :: tail
        | none => tail)

def listingsOfData (data : Json) : Except PyErr (List Listing) :=
  listingsOfItems (candidatesOf data)

/-- The listings of `listingsOfData` when it succeeds, `[]` otherwise. -/
def listingsTotal (data : Json) : List Listing :=
  match listingsOfData data with
  | .ok l => l
  | .error _ => []

def listingsOfBlocks : List Json → Except PyErr (List Listing)
  | [] => .ok []
  | data :: rest =>
    match listingsOfData data with
    | .error e => .error e
    | .ok l =>
      match listingsOfBlocks rest with
      | .error e => .error e
      | .ok tail => .ok (l ++ tail)

/-- `parse_json_ld`, as a function of the markup's event stream and of the
stdlib JSON decoder (`loads raw = none` models `json.JSONDecodeError`,
which line 79–80 turns into skipping the block). -/
def parse_json_ld (loads : String → Option Json) (events : List HtmlEvent) :
    Except PyErr (List Listing) :=
  listingsOfBlocks ((extractBlocks events).filterMap loads)

/-! ## `parse_fallback_html` (lines 141–165)

The pattern
`<a[^>]+href="(?P<url>/usedcar/detail/[^\"]+)"[^>]*>(?P<title>[^<]{2,200})</a>`
with `re.IGNORECASE`, scanned by `finditer`.  Its bounded character classes
make the backtracking shape small: `[^>]+` tries the candidate `href="`
positions from the longest prefix down; `[^"]+`, `[^>]*` and `[^<]{2,200}`
are forced (each is followed by the very character it excludes). -/

/-- ASCII case-insensitive character match against a pattern character `p`
that is never an upper-case letter (the regex literals here are lower case
or symbols): the subject matches when it equals `p` or is its upper-case
form. -/
def ciEqCh (p c : Char) : Bool :=
  c = p || (('a' ≤ p && p ≤ 'z') && c = Char.ofNat (p.toNat - 32))

/-- Case-insensitive prefix test; the pattern is given in lower case. -/
def listStartsWithCi : List Char → List Char → Bool
  | [], _ => true
  | _ :: _, [] => false
  | p :: ps, c :: cs => ciEqCh p c && listStartsWithCi ps cs

/-- After `href="`: the url group, the `[^>]*>` gap and the title group,
returning `(url, title, rest-after-match)`. -/
def faAfterHref (cs : List Char) : Option (List Char × List Char × List Char) :=
  let u := cs.takeWhile (fun c => c ≠ '"')
  match cs.drop u.length with
  | c0 :: r2 =>
    if c0 = '"' then
      if listStartsWithCi "/usedcar/detail/".data u && 16 < u.length then
        let w := r2.takeWhile (fun c => c ≠ '>')
        match r2.drop w.length with
        | c1 :: r3 =>
          if c1 = '>' then
            let t := r3.takeWhile (fun c => c ≠ '<')
            if 2 ≤ t.length && t.length ≤ 200 &&
                listStartsWithCi ['<', '/', 'a', '>'] (r3.drop t.length) then
              some (u, t, (r3.drop t.length).drop 4)
            else none
          else none
        | [] => none
      else none
    else none
  | [] => none

/-- Try the `[^>]+` split points from length `i` down to 1 (greedy with
backtracking). -/
def faTryCand (afterA : List Char) : Nat → Option (List Char × List Char × List Char)
  | 0 => none
  | i + 1 =>
    if listStartsWithCi "href=\"".data (afterA.drop (i + 1)) then
      match faAfterHref (afterA.drop (i + 1 + 6)) with
      | some r => some r
      | none => faTryCand afterA i
    else faTryCand afterA i

/-- One anchored match attempt at the current position. -/
def faMatchAt (cs : List Char) : Option (List Char × List Char × List Char) :=
  if listStartsWithCi ['<', 'a'] cs then
    let afterA := cs.drop 2
    faTryCand afterA ((afterA.takeWhile (fun c => c ≠ '>')).length)
  else none

/-- `finditer`: leftmost matches, scanning on from the end of each match.
The fuel is the remaining length (every step consumes at least one
character). -/
def faScan : Nat → List Char → List (List Char × List Char)
  | 0, _ => []
  | _, [] => []
  | fuel + 1, c :: r =>
    match faMatchAt (c :: r) with
    | some (u, t, rest) => (u, t) :: faScan fuel rest
    | none => faScan fuel r

/-- Lines 148–162: one match to an optional listing (`none` = skipped when
the collapsed title is empty). -/
def fallbackListingOf (u t : List Char) : Except PyErr (Option Listing) :=
  let title := pyStrip (collapseWs ⟨t⟩)
  if title = "" then .ok none
  else
    match pyUrljoin ⟨u⟩ with
    | .error e => .error e
    | .ok du => .ok (some { title := title, price_yen := none, price_label := "",
                            location := "", image_url := "", detail_url := du })

/-- The append loop with its `len(listings) >= 60` break. -/
def faBuild : List (List Char × List Char) → Nat → Except PyErr (List Listing)
  | [], _ => .ok []
  | (u, t) :: rest, k =>
    match fallbackListingOf u t with
    | .error e => .error e
    | .ok none => faBuild rest k
    | .ok (some l) =>
      if 60 ≤ k + 1 then .ok [l]
      else
        match faBuild rest (k + 1) with
        | .error e => .error e
        | .ok tail => .ok (l :: tail)

def parse_fallback_html (html : String) : Except PyErr (List Listing) :=
  faBuild (faScan html.data.length html.data) 0

/-! ## `scrape` after the fetch (lines 182–191) -/

/-- The post-fetch part of `scrape`: structured parse, conditional fallback,
dedupe.  `html` is the fetched text and `events` its tokenization by the
stdlib `HTMLParser`. -/
def scrape_pipeline (loads : String → Option Json) (html : String)
    (events : List HtmlEvent) : Except PyErr (List Listing) :=
  match parse_json_ld loads events with
  | .error e => .error e
  | .ok l =>
    match (if l.isEmpty then parse_fallback_html html else .ok l) with
    | .error e => .error e
    | .ok l2 => .ok (dedupe l2)

/-! ## Lemmas about the deduplication dict -/

/-- The last listing of `listings` whose natural key is `k`. -/
def lastWith (listings : List Listing) (k : String) : Option Listing :=
  (listings.filter (fun x => keyOf x = k)).getLast?

/-- The dict `uniq` of `scrape` after inserting all of `listings`, described
extensionally: first-seen key order, last-seen values. -/
def dictModel (listings : List Listing) : List (String × Listing) :=
  (firstKeys (listings.map keyOf)).filterMap
    (fun k => (lastWith listings k).map (fun v => (k, v)))

lemma filterMap_congr_mem {α β : Type} {f g : α → Option β} :
    ∀ {l : List α}, (∀ a ∈ l, f a = g a) → l.filterMap f = l.filterMap g := by
  intro l
  induction l with
  | nil => intro _; rfl
  | cons a t ih =>
    intro h
    simp only [List.filterMap_cons, h a (by simp)]
    cases g a <;> simp [ih (fun b hb => h b (by simp [hb]))]

lemma firstKeys_snoc (ks : List String) (k : String) :
    firstKeys (ks ++ [k]) =
      if (firstKeys ks).any (fun a => a = k) then firstKeys ks
      else firstKeys ks ++ [k] := by
  simp [firstKeys, List.foldl_append]

lemma mem_foldl_firstKeys (ks : List String) :
    ∀ (acc : List String) (a : String),
      a ∈ ks.foldl
          (fun acc k => if acc.any (fun a => a = k) then acc else acc ++ [k])
          acc ↔ a ∈ acc ∨ a ∈ ks := by
  induction ks with
  | nil => simp
  | cons k t ih =>
    intro acc a
    simp only [List.foldl_cons]
    rw [ih]
    by_cases h : acc.any (fun a => a = k) = true
    · rw [if_pos h]
      have hk : k ∈ acc := by
        rcases List.any_eq_true.mp h with ⟨b, hb, hbk⟩
        have hbk2 : b = k := by simpa using hbk
        exact hbk2 ▸ hb
      simp only [List.mem_cons]
      constructor
      · rintro (h1 | h2)
        · exact Or.inl h1
        · exact Or.inr (Or.inr h2)
      · rintro (h1 | h2 | h3)
        · exact Or.inl h1
        · exact Or.inl (h2 ▸ hk)
        · exact Or.inr h3
    · rw [if_neg h]
      simp only [List.mem_append, List.mem_singleton, List.mem_cons]
      tauto

lemma mem_firstKeys {ks : List String} {a : String} :
    a ∈ firstKeys ks ↔ a ∈ ks := by
  rw [firstKeys, mem_foldl_firstKeys]
  simp

lemma lastWith_snoc (l : List Listing) (x : Listing) (k : String) :
    lastWith (l ++ [x]) k = if keyOf x = k then some x else lastWith l k := by
  unfold lastWith
  rw [List.filter_append]
  by_cases h : keyOf x = k
  · simp [h]
  · simp [h]

lemma getLastIsSome_of_ne_nil {α : Type} :
    ∀ (t : List α), t ≠ [] → ∃ v, t.getLast? = some v := by
  intro t
  induction t with
  | nil => intro h; exact absurd rfl h
  | cons a s ih =>
    intro _
    cases s with
    | nil => exact ⟨a, rfl⟩
    | cons b s2 =>
      rcases ih (by simp) with ⟨v, hv⟩
      exact ⟨v, by rw [List.getLast?_cons_cons]; exact hv⟩

lemma lastWith_isSome_of_mem {l : List Listing} {k : String}
    (h : k ∈ l.map keyOf) : ∃ v, lastWith l k = some v := by
  rcases List.mem_map.mp h with ⟨y, hy, hk⟩
  unfold lastWith
  apply getLastIsSome_of_ne_nil
  intro hnil
  have := List.filter_eq_nil_iff.mp hnil y hy
  simp [hk] at this

lemma dictModel_any (l : List Listing) (k0 : String) :
    (dictModel l).any (fun p => p.1 = k0) =
      (firstKeys (l.map keyOf)).any (fun a => a = k0) := by
  by_cases h : k0 ∈ firstKeys (l.map keyOf)
  · have h1 : (firstKeys (l.map keyOf)).any (fun a => a = k0) = true :=
      List.any_eq_true.mpr ⟨k0, h, by simp⟩
    rcases lastWith_isSome_of_mem (mem_firstKeys.mp h) with ⟨v, hv⟩
    have h2 : (dictModel l).any (fun p => p.1 = k0) = true := by
      refine List.any_eq_true.mpr ⟨(k0, v), ?_, by simp⟩
      exact List.mem_filterMap.mpr ⟨k0, h, by simp [hv]⟩
    rw [h1, h2]
  · have h1 : (firstKeys (l.map keyOf)).any (fun a => a = k0) = false := by
      rw [List.any_eq_false]
      intro a ha
      simp only [decide_eq_true_eq]
      intro hak
      exact h (hak ▸ ha)
    have h2 : (dictModel l).any (fun p => p.1 = k0) = false := by
      rw [List.any_eq_false]
      intro p hp
      rcases List.mem_filterMap.mp hp with ⟨k, hk, hpk⟩
      cases hlw : lastWith l k with
      | none => simp [hlw] at hpk
      | some v =>
        have hpk2 : (k, v) = p := by simpa [hlw] using hpk
        have hp1 : p.1 = k := by rw [← hpk2]
        simp only [hp1, decide_eq_true_eq]
        intro hkk
        exact h (hkk ▸ hk)
    rw [h1, h2]

lemma dictState_eq (l : List Listing) :
    l.foldl (fun acc it => dictUpsert acc (keyOf it) it) [] = dictModel l := by
  induction l using List.reverseRecOn with
  | nil => rfl
  | append_singleton l x ih =>
    rw [List.foldl_append, List.foldl_cons, List.foldl_nil, ih]
    unfold dictUpsert
    rw [dictModel_any]
    unfold dictModel
    rw [List.map_append]
    simp only [List.map_cons, List.map_nil]
    rw [firstKeys_snoc]
    by_cases h : (firstKeys (l.map keyOf)).any (fun a => a = keyOf x) = true
    · rw [if_pos h, if_pos h, List.map_filterMap]
      apply filterMap_congr_mem
      intro k hk
      by_cases hkk : k = keyOf x
      · subst hkk
        rcases lastWith_isSome_of_mem (mem_firstKeys.mp hk) with ⟨v, hv⟩
        rw [lastWith_snoc]
        simp [hv]
      · rw [lastWith_snoc]
        have : ¬(keyOf x = k) := fun hc => hkk hc.symm
        simp only [this, if_neg, not_false_iff]
        cases lastWith l k with
        | none => rfl
        | some v => simp [hkk]
    · rw [if_neg h, if_neg h, List.filterMap_append]
      have hnm : keyOf x ∉ firstKeys (l.map keyOf) := by
        intro hc
        exact h (List.any_eq_true.mpr ⟨keyOf x, hc, by simp⟩)
      congr 1
      · apply filterMap_congr_mem
        intro k hk
        rw [lastWith_snoc]
        have : ¬(keyOf x = k) := by
          intro hc
          exact hnm (hc ▸ hk)
        simp [this]
      · simp [lastWith_snoc]

/-! ## String non-emptiness lemmas -/

lemma string_data_ne {s : String} (h : s.data ≠ []) : s ≠ "" := by
  intro hc
  rw [hc] at h
  exact h rfl

lemma string_append_ne_left {s t : String} (h : s ≠ "") : s ++ t ≠ "" := by
  apply string_data_ne
  rw [String.data_append]
  intro hc
  rcases List.append_eq_nil.mp hc with ⟨h1, _⟩
  exact h (by cases s with
    | mk d =>
      cases h1
      rfl)

lemma pyUrlunsplit_https_ne (netloc path query frag : String) :
    pyUrlunsplit "https" netloc path query frag ≠ "" := by
  unfold pyUrlunsplit
  dsimp only
  have base : ∀ u : String, ("https" ++ ":" ++ u : String) ≠ "" := by
    intro u
    exact string_append_ne_left (string_append_ne_left (by decide))
  split <;> split <;>
    · repeat
        first
          | exact base _
          | apply string_append_ne_left

lemma pyUrljoin_ok_ne {u r : String} (h : pyUrljoin u = .ok r) : r ≠ "" := by
  unfold pyUrljoin at h
  by_cases hu : u = ""
  · rw [if_pos hu] at h
    cases h
    decide
  · rw [if_neg hu] at h
    cases hp : pyUrlparse u with
    | error e => rw [hp] at h; cases h
    | ok su =>
      rw [hp] at h
      dsimp only at h
      by_cases hs : su.scheme ≠ "https"
      · rw [if_pos hs] at h
        cases h
        exact hu
      · rw [if_neg hs] at h
        push_neg at hs
        by_cases hn : su.netloc ≠ ""
        · rw [if_pos hn] at h
          cases h
          rw [hs]
          exact pyUrlunsplit_https_ne _ _ _ _
        · rw [if_neg hn] at h
          split at h <;> (cases h; exact pyUrlunsplit_https_ne _ _ _ _)

/-! ## Lemmas about the structured parser -/

/-- All listings of all blocks, in document order, ignoring failed blocks. -/
def concatListings (js : List Json) : List Listing :=
  js.foldr (fun j acc => listingsTotal j ++ acc) []

lemma listingsOfBlocks_ok {js : List Json}
    (h : ∀ j ∈ js, ∃ ls, listingsOfData j = .ok ls) :
    listingsOfBlocks js = .ok (concatListings js) := by
  induction js with
  | nil => rfl
  | cons j t ih =>
    rcases h j (by simp) with ⟨ls, hls⟩
    have ht := ih (fun x hx => h x (by simp [hx]))
    have hTot : listingsTotal j = ls := by
      unfold listingsTotal
      rw [hls]
    simp only [listingsOfBlocks, hls, ht, concatListings, List.foldr_cons]
    rw [hTot]

lemma mem_listingsOfItems {items : List Json} {ls : List Listing}
    (h : listingsOfItems items = .ok ls) {l : Listing} (hl : l ∈ ls) :
    ∃ item ∈ items, processItem item = .ok (some l) := by
  induction items generalizing ls with
  | nil =>
    cases h
    simp at hl
  | cons it t ih =>
    simp only [listingsOfItems] at h
    cases hpi : processItem it with
    | error e => rw [hpi] at h; cases h
    | ok o =>
      rw [hpi] at h
      cases hrest : listingsOfItems t with
      | error e => rw [hrest] at h; cases h
      | ok tail =>
        rw [hrest] at h
        cases o with
        | some l2 =>
          cases h
          rcases List.mem_cons.mp hl with rfl | hl2
          · exact ⟨it, by simp, hpi⟩
          · rcases ih hrest hl2 with ⟨item, hm, hp⟩
            exact ⟨item, by simp [hm], hp⟩
        | none =>
          cases h
          rcases ih hrest hl with ⟨item, hm, hp⟩
          exact ⟨item, by simp [hm], hp⟩

lemma mem_listingsOfBlocks {js : List Json} {ls : List Listing}
    (h : listingsOfBlocks js = .ok ls) {l : Listing} (hl : l ∈ ls) :
    ∃ j ∈ js, ∃ item ∈ candidatesOf j, processItem item = .ok (some l) := by
  induction js generalizing ls with
  | nil =>
    cases h
    simp at hl
  | cons j t ih =>
    simp only [listingsOfBlocks] at h
    cases hd : listingsOfData j with
    | error e => rw [hd] at h; cases h
    | ok cur =>
      rw [hd] at h
      cases hrest : listingsOfBlocks t with
      | error e => rw [hrest] at h; cases h
      | ok tail =>
        rw [hrest] at h
        cases h
        rcases List.mem_append.mp hl with hcur | htail
        · rcases mem_listingsOfItems hd hcur with ⟨item, hm, hp⟩
          exact ⟨j, by simp, item, hm, hp⟩
        · rcases ih hrest htail with ⟨j2, hj2, item, hm, hp⟩
          exact ⟨j2, by simp [hj2], item, hm, hp⟩

lemma processItem_ok_some {item : Json} {l : Listing}
    (h : processItem item = .ok (some l)) :
    ∃ m, item = .obj m ∧ nameStrOf m ≠ "" ∧
      ∃ pf iu du, priceFields (offersOf m) = .ok pf ∧ imageResOf m = .ok iu ∧
        pyUrljoin (urlStrOf m) = .ok du ∧
        l = { title := nameStrOf m, price_yen := pf.1, price_label := pf.2,
              location := locationOf m, image_url := iu, detail_url := du } := by
  cases item with
  | obj m =>
    refine ⟨m, rfl, ?_⟩
    simp only [processItem] at h
    by_cases hn : nameStrOf m = ""
    · rw [if_pos hn] at h
      exact absurd h (by simp)
    · rw [if_neg hn] at h
      refine ⟨hn, ?_⟩
      cases hpf : priceFields (offersOf m) with
      | error e => rw [hpf] at h; cases h
      | ok pf =>
        rw [hpf] at h
        cases him : imageResOf m with
        | error e => rw [him] at h; cases h
        | ok iu =>
          rw [him] at h
          cases hdu : pyUrljoin (urlStrOf m) with
          | error e => rw [hdu] at h; cases h
          | ok du =>
            rw [hdu] at h
            refine ⟨pf, iu, du, rfl, rfl, rfl, ?_⟩
            have h2 := Except.ok.inj h
            exact (Option.some.inj h2).symm
  | null => exact absurd h (by simp [processItem])
  | bool b => exact absurd h (by simp [processItem])
  | num n => exact absurd h (by simp [processItem])
  | str s => exact absurd h (by simp [processItem])
  | arr xs => exact absurd h (by simp [processItem])

/-! ## Lemmas about the fallback parser -/

lemma fallbackListingOf_ok_some {u t : List Char} {l : Listing}
    (h : fallbackListingOf u t = .ok (some l)) :
    l.title = pyStrip (collapseWs ⟨t⟩) ∧ l.title ≠ "" ∧ l.price_yen = none ∧
    l.price_label = "" ∧ l.location = "" ∧ l.image_url = "" ∧
    pyUrljoin ⟨u⟩ = .ok l.detail_url := by
  unfold fallbackListingOf at h
  by_cases ht : pyStrip (collapseWs ⟨t⟩) = ""
  · rw [if_pos ht] at h
    exact absurd h (by simp)
  · rw [if_neg ht] at h
    cases hj : pyUrljoin ⟨u⟩ with
    | error e => rw [hj] at h; cases h
    | ok du =>
      rw [hj] at h
      cases h
      exact ⟨rfl, ht, rfl, rfl, rfl, rfl, rfl⟩

lemma mem_faBuild {ms : List (List Char × List Char)} :
    ∀ {k : Nat} {ls : List Listing}, faBuild ms k = .ok ls →
      ∀ {l : Listing}, l ∈ ls →
        ∃ u t, (u, t) ∈ ms ∧ fallbackListingOf u t = .ok (some l) := by
  induction ms with
  | nil =>
    intro k ls h l hl
    cases h
    simp at hl
  | cons p rest ih =>
    intro k ls h l hl
    obtain ⟨u, t⟩ := p
    simp only [faBuild] at h
    cases hf : fallbackListingOf u t with
    | error e => rw [hf] at h; cases h
    | ok o =>
      rw [hf] at h
      cases o with
      | none =>
        dsimp only at h
        rcases ih h hl with ⟨u2, t2, hm, hp⟩
        exact ⟨u2, t2, by simp [hm], hp⟩
      | some l2 =>
        dsimp only at h
        by_cases hk : 60 ≤ k + 1
        · rw [if_pos hk] at h
          cases h
          have := List.mem_singleton.mp hl
          subst this
          exact ⟨u, t, by simp, hf⟩
        · rw [if_neg hk] at h
          cases hrest : faBuild rest (k + 1) with
          | error e => rw [hrest] at h; cases h
          | ok tail =>
            rw [hrest] at h
            cases h
            rcases List.mem_cons.mp hl with rfl | hl2
            · exact ⟨u, t, by simp, hf⟩
            · rcases ih hrest hl2 with ⟨u2, t2, hm, hp⟩
              exact ⟨u2, t2, by simp [hm], hp⟩

lemma faBuild_length {ms : List (List Char × List Char)} :
    ∀ {k : Nat} {ls : List Listing}, faBuild ms k = .ok ls → k < 60 →
      ls.length + k ≤ 60 := by
  induction ms with
  | nil =>
    intro k ls h hk
    cases h
    simpa using Nat.le_of_lt hk
  | cons p rest ih =>
    intro k ls h hk
    obtain ⟨u, t⟩ := p
    simp only [faBuild] at h
    cases hf : fallbackListingOf u t with
    | error e => rw [hf] at h; cases h
    | ok o =>
      rw [hf] at h
      cases o with
      | none =>
        dsimp only at h
        exact ih h hk
      | some l2 =>
        dsimp only at h
        by_cases hc : 60 ≤ k + 1
        · rw [if_pos hc] at h
          cases h
          simp only [List.length_singleton]
          omega
        · rw [if_neg hc] at h
          cases hrest : faBuild rest (k + 1) with
          | error e => rw [hrest] at h; cases h
          | ok tail =>
            rw [hrest] at h
            cases h
            have h2 := ih hrest (by omega)
            simp only [List.length_cons]
            omega

lemma startsWithCi_inv {p : Char} {ps l : List Char}
    (h : listStartsWithCi (p :: ps) l = true) :
    ∃ c cs, l = c :: cs ∧ ciEqCh p c = true ∧ listStartsWithCi ps cs = true := by
  cases l with
  | nil => simp [listStartsWithCi] at h
  | cons c cs =>
    simp only [listStartsWithCi, Bool.and_eq_true] at h
    exact ⟨c, cs, rfl, h.1, h.2⟩

lemma ciEqCh_cases {p c : Char} (h : ciEqCh p c = true) :
    c = p ∨ (('a' ≤ p ∧ p ≤ 'z') ∧ c = Char.ofNat (p.toNat - 32)) := by
  simp only [ciEqCh, Bool.or_eq_true, Bool.and_eq_true, decide_eq_true_eq] at h
  rcases h with h | ⟨⟨h1, h2⟩, h3⟩
  · exact Or.inl h
  · exact Or.inr ⟨⟨h1, h2⟩, h3⟩

/-- A matched fallback url starts (modulo ASCII case) with `/usedcar/`. -/
lemma detailCi_shape {u : List Char}
    (h : listStartsWithCi "/usedcar/detail/".data u = true) :
    ∃ c1 rest, u = '/' :: c1 :: rest ∧ (c1 = 'u' ∨ c1 = 'U') := by
  rcases startsWithCi_inv h with ⟨c0, cs0, rfl, hc0, h1⟩
  rcases startsWithCi_inv h1 with ⟨c1, cs1, rfl, hc1, _⟩
  have e0 : c0 = '/' := by
    rcases ciEqCh_cases hc0 with h | ⟨⟨h1, _⟩, _⟩
    · exact h
    · exact absurd h1 (by decide)
  have e1 : c1 = 'u' ∨ c1 = 'U' := by
    rcases ciEqCh_cases hc1 with h | ⟨_, h⟩
    · exact Or.inl h
    · exact Or.inr (by rw [h]; decide)
  subst e0
  exact ⟨c1, cs1, rfl, e1⟩

lemma findColonSplit_cons_ne {c : Char} (h : ¬(c = ':')) (cs : List Char) :
    findColonSplit (c :: cs) = (findColonSplit cs).map (fun p => (c :: p.1, p.2)) := by
  simp [findColonSplit, h]

lemma schemeSplit_slash (cs : List Char) :
    schemeSplit ('/' :: cs) = ("https", '/' :: cs) := by
  unfold schemeSplit
  rw [findColonSplit_cons_ne (by decide)]
  cases findColonSplit cs with
  | none => rfl
  | some p => rfl

lemma pyUrlparse_slash (c1 : Char) (rest : List Char) (hc : c1 = 'u' ∨ c1 = 'U') :
    ∃ su, pyUrlparse ⟨'/' :: c1 :: rest⟩ = .ok su ∧
      su.scheme = "https" ∧ su.netloc = "" := by
  have hstrip : stripUnsafe ⟨'/' :: c1 :: rest⟩ =
      '/' :: c1 :: rest.filter (fun c => !(c = '\t' || c = '\r' || c = '\n')) := by
    rcases hc with rfl | rfl <;> rfl
  have hnet : netlocSplit ('/' :: c1 ::
      rest.filter (fun c => !(c = '\t' || c = '\r' || c = '\n'))) =
      ([], '/' :: c1 :: rest.filter (fun c => !(c = '\t' || c = '\r' || c = '\n'))) := by
    rcases hc with rfl | rfl <;> rfl
  simp only [pyUrlparse, hstrip, schemeSplit_slash, hnet]
  exact ⟨_, rfl, rfl, rfl⟩

/-- Every matched fallback url resolves without an exception. -/
lemma pyUrljoin_detail_ok {u : List Char}
    (h : listStartsWithCi "/usedcar/detail/".data u = true) :
    ∃ r, pyUrljoin ⟨u⟩ = .ok r := by
  rcases detailCi_shape h with ⟨c1, rest, rfl, hc⟩
  rcases pyUrlparse_slash c1 rest hc with ⟨su, hps, hsch, hnet⟩
  unfold pyUrljoin
  have hne : ¬((⟨'/' :: c1 :: rest⟩ : String) = "") := by
    apply string_data_ne
    simp
  rw [if_neg hne, hps]
  dsimp only
  rw [if_neg (by rw [hsch]; simp), if_neg (by rw [hnet]; simp)]
  split
  · exact ⟨_, rfl⟩
  · exact ⟨_, rfl⟩

lemma faAfterHref_some {cs u t rest}
    (h : faAfterHref cs = some (u, t, rest)) :
    listStartsWithCi "/usedcar/detail/".data u = true ∧ 2 ≤ t.length := by
  unfold faAfterHref at h
  dsimp only at h
  cases hd : cs.drop (cs.takeWhile (fun c => c ≠ '"')).length with
  | nil => rw [hd] at h; cases h
  | cons c0 r2 =>
    rw [hd] at h
    dsimp only at h
    by_cases hc0 : c0 = '"'
    · rw [if_pos hc0] at h
      by_cases hpre : (listStartsWithCi "/usedcar/detail/".data
          (cs.takeWhile (fun c => c ≠ '"')) &&
          decide (16 < (cs.takeWhile (fun c => c ≠ '"')).length)) = true
      · rw [if_pos hpre] at h
        cases hd2 : r2.drop (r2.takeWhile (fun c => c ≠ '>')).length with
        | nil => rw [hd2] at h; cases h
        | cons c1 r3 =>
          rw [hd2] at h
          dsimp only at h
          by_cases hc1 : c1 = '>'
          · rw [if_pos hc1] at h
            by_cases htl : (decide (2 ≤ (r3.takeWhile (fun c => c ≠ '<')).length) &&
                decide ((r3.takeWhile (fun c => c ≠ '<')).length ≤ 200) &&
                listStartsWithCi ['<', '/', 'a', '>']
                  (r3.drop (r3.takeWhile (fun c => c ≠ '<')).length)) = true
            · rw [if_pos htl] at h
              cases h
              simp only [Bool.and_eq_true, decide_eq_true_eq] at hpre htl
              exact ⟨hpre.1, htl.1.1⟩
            · rw [if_neg htl] at h; cases h
          · rw [if_neg hc1] at h; cases h
      · rw [if_neg hpre] at h; cases h
    · rw [if_neg hc0] at h; cases h

lemma faTryCand_some {afterA : List Char} {u t rest : List Char} :
    ∀ {i : Nat}, faTryCand afterA i = some (u, t, rest) →
      listStartsWithCi "/usedcar/detail/".data u = true ∧ 2 ≤ t.length := by
  intro i
  induction i with
  | zero => intro h; cases h
  | succ n ih =>
    intro h
    simp only [faTryCand] at h
    by_cases hs : listStartsWithCi "href=\"".data (afterA.drop (n + 1)) = true
    · rw [if_pos hs] at h
      cases hah : faAfterHref (afterA.drop (n + 1 + 6)) with
      | some r =>
        rw [hah] at h
        cases h
        exact faAfterHref_some hah
      | none =>
        rw [hah] at h
        exact ih h
    · rw [if_neg hs] at h
      exact ih h

lemma faMatchAt_some {cs u t rest : List Char}
    (h : faMatchAt cs = some (u, t, rest)) :
    listStartsWithCi "/usedcar/detail/".data u = true ∧ 2 ≤ t.length := by
  unfold faMatchAt at h
  by_cases hs : listStartsWithCi ['<', 'a'] cs = true
  · rw [if_pos hs] at h
    exact faTryCand_some h
  · rw [if_neg hs] at h
    cases h

lemma mem_faScan {fuel : Nat} :
    ∀ {cs : List Char} {u t : List Char}, (u, t) ∈ faScan fuel cs →
      listStartsWithCi "/usedcar/detail/".data u = true ∧ 2 ≤ t.length := by
  induction fuel with
  | zero =>
    intro cs u t h
    simp [faScan] at h
  | succ n ih =>
    intro cs u t h
    cases cs with
    | nil => simp [faScan] at h
    | cons c r =>
      simp only [faScan] at h
      cases hm : faMatchAt (c :: r) with
      | some res =>
        obtain ⟨u2, t2, rest2⟩ := res
        rw [hm] at h
        rcases List.mem_cons.mp h with heq | h2
        · obtain ⟨rfl, rfl⟩ := Prod.mk.injEq .. ▸ (by exact heq : (u, t) = (u2, t2))
          exact faMatchAt_some hm
        · exact ih h2
      | none =>
        rw [hm] at h
        exact ih h

lemma faBuild_total {ms : List (List Char × List Char)}
    (hm : ∀ p ∈ ms, listStartsWithCi "/usedcar/detail/".data p.1 = true) :
    ∀ k, ∃ ls, faBuild ms k = .ok ls := by
  induction ms with
  | nil => intro k; exact ⟨[], rfl⟩
  | cons p rest ih =>
    intro k
    obtain ⟨u, t⟩ := p
    have hu := hm (u, t) (by simp)
    rcases pyUrljoin_detail_ok hu with ⟨r, hr⟩
    have hih := fun k2 => ih (fun q hq => hm q (by simp [hq])) k2
    simp only [faBuild]
    unfold fallbackListingOf
    by_cases ht : pyStrip (collapseWs ⟨t⟩) = ""
    · rw [if_pos ht]
      exact hih k
    · rw [if_neg ht, hr]
      dsimp only
      by_cases hk : 60 ≤ k + 1
      · rw [if_pos hk]
        exact ⟨_, rfl⟩
      · rw [if_neg hk]
        rcases hih (k + 1) with ⟨ls, hls⟩
        rw [hls]
        exact ⟨_, rfl⟩

lemma parse_fallback_total (html : String) :
    ∃ ls, parse_fallback_html html = .ok ls := by
  apply faBuild_total
  intro p hp
  obtain ⟨u, t⟩ := p
  exact (mem_faScan hp).1

/-! ## Claim theorems about filters, dedupe and `main` -/

/-- C6: `apply_filters` keeps exactly the listings passing the price criterion
(absent price or price at most the threshold; no threshold keeps all) and the
region criterion (lower-cased keyword a substring of the lower-cased location;
unset or empty keyword keeps all), the two composing as one order-preserving
filter. -/
theorem apply_filters_semantics :
    ∀ (l : List Listing) (m : Option Int) (r : Option String),
      apply_filters l m r = l.filter (fun it => priceOk m it && regionOk r it) ∧
      (∀ it, priceOk m it = true ↔
        (m = none ∨ it.price_yen = none ∨
          ∃ mp p, m = some mp ∧ it.price_yen = some p ∧ p ≤ mp)) ∧
      (∀ it kw, regionOk (some kw) it =
        (decide (kw = "") || strContains (pyLower it.location) (pyLower kw))) ∧
      (∀ it, regionOk none it = true) := by
  intro l m r
  refine ⟨apply_filters_eq_filter l m r, ?_, ?_, fun it => rfl⟩
  · intro it
    cases m with
    | none => simp [priceOk]
    | some mp =>
      cases hp : it.price_yen with
      | none => simp [priceOk, hp]
      | some p =>
        simp only [priceOk, hp]
        constructor
        · intro hle
          exact Or.inr (Or.inr ⟨mp, p, rfl, rfl, by simpa using hle⟩)
        · rintro (hc | hc | ⟨mp2, p2, hm2, hp2, hle⟩)
          · exact absurd hc (by simp)
          · exact absurd hc (by simp)
          · cases hm2
            cases hp2
            simpa using hle
  · intro it kw
    by_cases h : kw = "" <;> simp [regionOk, h]

/-- C9: filtering an already-filtered list with the same parameters changes
nothing. -/
theorem apply_filters_idempotent (l : List Listing) (m : Option Int)
    (r : Option String) :
    apply_filters (apply_filters l m r) m r = apply_filters l m r := by
  simp [apply_filters_eq_filter, List.filter_filter]

/-- C5: deduplication keys a listing by `detail_url` when non-empty, else by
the `title-price_label-location` composite; the result has one listing per
key, at the key's first occurrence, with the values of the last listing
having that key. -/
theorem dedupe_matches_spec : ∀ l : List Listing, dedupe l = dedupeSpec l := by
  intro l
  unfold dedupe
  rw [dictState_eq]
  unfold dictModel dedupeSpec
  rw [List.map_filterMap]
  apply filterMap_congr_mem
  intro k _
  have hrw : (List.filter (fun x => decide (keyOf x = k)) l).getLast? =
      lastWith l k := rfl
  rw [hrw]
  cases hlw : lastWith l k <;> simp [hlw]

/-! ## Sign analysis of the price paths -/

/-- The sign flag of a float (NaN counted as positive). -/
def floatNeg : PyFloat → Bool
  | .finite neg _ _ => neg
  | .inf neg => neg
  | .nan => false

lemma mkFinite_neg (num den : Nat) : floatNeg (mkFinite false num den) = false := by
  unfold mkFinite
  cases roundPosRat num den with
  | none => rfl
  | some p =>
    obtain ⟨sig, exp⟩ := p
    rfl

lemma floatOfDecimal_neg (m : Nat) (e : Int) :
    floatNeg (floatOfDecimal false m e) = false := by
  unfold floatOfDecimal
  repeat' split
  all_goals first
    | rfl
    | exact mkFinite_neg _ _

lemma parseUnsignedFloat_neg {cs : List Char} {f : PyFloat}
    (h : parseUnsignedFloat cs = some f) : floatNeg f = false := by
  unfold parseUnsignedFloat at h
  by_cases h1 : (ciIs cs "inf".data || ciIs cs "infinity".data) = true
  · rw [if_pos h1] at h
    cases h
    rfl
  · rw [if_neg h1] at h
    by_cases h2 : ciIs cs "nan".data = true
    · rw [if_pos h2] at h
      cases h
      rfl
    · rw [if_neg h2] at h
      rcases Option.map_eq_some'.mp h with ⟨p, _, hp2⟩
      rw [← hp2]
      exact floatOfDecimal_neg _ _

lemma mem_dropLeadingWs {x : Char} : ∀ {l : List Char}, x ∈ dropLeadingWs l → x ∈ l := by
  intro l
  induction l with
  | nil => intro h; simp [dropLeadingWs] at h
  | cons c r ih =>
    intro h
    simp only [dropLeadingWs] at h
    by_cases hc : pyIsSpace c = true
    · rw [if_pos hc] at h
      exact List.mem_cons_of_mem _ (ih h)
    · rw [if_neg hc] at h
      exact h

lemma mem_pyStripL {x : Char} {l : List Char} (h : x ∈ pyStripL l) : x ∈ l := by
  unfold pyStripL at h
  have h1 := mem_dropLeadingWs (List.mem_reverse.mp h)
  exact mem_dropLeadingWs (List.mem_reverse.mp h1)

lemma pyFloatOfString_noMinus {s : String} {f : PyFloat}
    (h : pyFloatOfString s = some f) (hm : '-' ∉ s.data) : floatNeg f = false := by
  unfold pyFloatOfString at h
  by_cases hu : underscoresOk none (pyStripL s.data) = true
  · rw [if_pos hu] at h
    cases hc : (pyStripL s.data).filter (fun c => c ≠ '_') with
    | nil =>
      rw [hc] at h
      exact parseUnsignedFloat_neg h
    | cons c r =>
      rw [hc] at h
      dsimp only at h
      by_cases hminus : c = '-'
      · exfalso
        have h1 : c ∈ (pyStripL s.data).filter (fun c => decide (c ≠ '_')) := by
          rw [hc]
          exact List.mem_cons_self _ _
        have h2 : c ∈ s.data := mem_pyStripL (List.mem_of_mem_filter h1)
        rw [hminus] at h2
        exact hm h2
      · rw [if_neg hminus] at h
        by_cases hplus : c = '+'
        · rw [if_pos hplus] at h
          exact parseUnsignedFloat_neg h
        · rw [if_neg hplus] at h
          exact parseUnsignedFloat_neg h
  · rw [if_neg hu] at h
    cases h

lemma truncFloat_nonneg {f : PyFloat} {n : Int} (h : truncFloat f = .ok n)
    (hneg : floatNeg f = false) : 0 ≤ n := by
  cases f with
  | finite neg sig exp =>
    have hnf : neg = false := hneg
    subst hnf
    unfold truncFloat at h
    cases h
    exact Int.natCast_nonneg _
  | inf neg => cases h
  | nan => cases h

lemma mulFloat10000_neg {f : PyFloat} (h : floatNeg f = false) :
    floatNeg (mulFloat10000 f) = false := by
  cases f with
  | finite neg sig exp =>
    have hnf : neg = false := h
    subst hnf
    unfold mulFloat10000
    dsimp only
    split
    · exact mkFinite_neg _ _
    · exact mkFinite_neg _ _
  | inf neg =>
    have hnf : neg = false := h
    subst hnf
    rfl
  | nan => rfl

lemma takeDigits_digits : ∀ (l : List Char), ∀ c ∈ (takeDigits l).1, isDigitCh c = true := by
  intro l
  induction l with
  | nil => intro c hc; simp [takeDigits] at hc
  | cons a r ih =>
    intro c hc
    simp only [takeDigits] at hc
    by_cases ha : isDigitCh a = true
    · rw [if_pos ha] at hc
      dsimp only at hc
      rcases List.mem_cons.mp hc with rfl | hc2
      · exact ha
      · exact ih c hc2
    · rw [if_neg ha] at hc
      simp at hc

lemma manMatchAt_chars {cs : List Char} {g : List Char} (h : manMatchAt cs = some g) :
    ∀ c ∈ g, isDigitCh c = true ∨ c = '.' := by
  unfold manMatchAt at h
  by_cases h1 : (takeDigits cs).1.isEmpty = true
  · rw [if_pos h1] at h
    cases h
  · rw [if_neg h1] at h
    dsimp only at h
    cases h2 : (takeDigits cs).2 with
    | nil =>
      rw [h2] at h
      dsimp only at h
      split at h
      · cases h
        intro c hc
        exact Or.inl (takeDigits_digits cs c hc)
      · cases h
    | cons c0 r =>
      rw [h2] at h
      dsimp only at h
      by_cases h3 : c0 = '.'
      · rw [if_pos h3] at h
        by_cases h4 : (takeDigits r).1.isEmpty = true
        · rw [if_pos h4] at h
          dsimp only at h
          split at h
          · cases h
            intro c hc
            exact Or.inl (takeDigits_digits cs c hc)
          · cases h
        · rw [if_neg h4] at h
          dsimp only at h
          split at h
          · cases h
            intro c hc
            rcases List.mem_append.mp hc with hc1 | hc2
            · exact Or.inl (takeDigits_digits cs c hc1)
            · rcases List.mem_cons.mp hc2 with rfl | hc3
              · exact Or.inr h3
              · exact Or.inl (takeDigits_digits r c hc3)
          · cases h
      · rw [if_neg h3] at h
        dsimp only at h
        split at h
        · cases h
          intro c hc
          exact Or.inl (takeDigits_digits cs c hc)
        · cases h

lemma searchMan_chars : ∀ {cs g : List Char}, searchMan cs = some g →
    ∀ c ∈ g, isDigitCh c = true ∨ c = '.' := by
  intro cs
  induction cs with
  | nil => intro g h; cases h
  | cons a r ih =>
    intro g h
    simp only [searchMan] at h
    cases hm : manMatchAt (a :: r) with
    | some g2 =>
      rw [hm] at h
      cases h
      exact manMatchAt_chars hm
    | none =>
      rw [hm] at h
      exact ih h

lemma normalize_price_nonneg {s : String} {n : Int}
    (h : normalize_price s = .ok (some n)) : 0 ≤ n := by
  unfold normalize_price at h
  dsimp only at h
  cases hm : searchMan (s.data.filter (fun c => c ≠ ',')) with
  | some g =>
    rw [hm] at h
    dsimp only at h
    cases hf : pyFloatOfString ⟨g⟩ with
    | none =>
      rw [hf] at h
      cases h
    | some f =>
      rw [hf] at h
      dsimp only at h
      have hgm : '-' ∉ (⟨g⟩ : String).data := by
        show '-' ∉ g
        intro hmem
        rcases searchMan_chars hm '-' hmem with hd | hd
        · exact absurd hd (by decide)
        · exact absurd hd (by decide)
      have hneg : floatNeg (mulFloat10000 f) = false :=
        mulFloat10000_neg (pyFloatOfString_noMinus hf hgm)
      cases ht : truncFloat (mulFloat10000 f) with
      | error e =>
        rw [ht] at h
        cases h
      | ok n2 =>
        rw [ht] at h
        dsimp only [Except.map] at h
        cases h
        exact truncFloat_nonneg ht hneg
  | none =>
    rw [hm] at h
    cases he : searchEn (s.data.filter (fun c => c ≠ ',')) with
    | some g =>
      rw [he] at h
      cases h
      exact Int.natCast_nonneg _
    | none =>
      rw [he] at h
      exact absurd h (by simp)

lemma natDigitChar_digit {n : Nat} (h : n < 10) : isDigitCh (natDigitChar n) = true := by
  interval_cases n <;> decide

lemma natReprAux_digits : ∀ (f n : Nat) (acc : List Char),
    (∀ c ∈ acc, isDigitCh c = true) → ∀ c ∈ natReprAux f n acc, isDigitCh c = true := by
  intro f
  induction f with
  | zero => intro n acc hacc c hc; exact hacc c hc
  | succ f ih =>
    intro n acc hacc c hc
    simp only [natReprAux] at hc
    by_cases hn : n < 10
    · rw [if_pos hn] at hc
      rcases List.mem_cons.mp hc with rfl | hc2
      · exact natDigitChar_digit hn
      · exact hacc c hc2
    · rw [if_neg hn] at hc
      refine ih (n / 10) _ ?_ c hc
      intro c2 hc2
      rcases List.mem_cons.mp hc2 with rfl | hc3
      · exact natDigitChar_digit (Nat.mod_lt _ (by omega))
      · exact hacc c2 hc3

lemma pyIntRepr_minus {i : Int} (h : '-' ∈ (pyIntRepr i).data) : i < 0 := by
  by_contra hge
  unfold pyIntRepr at h
  rw [if_neg hge] at h
  have hd := natReprAux_digits (i.natAbs + 1) i.natAbs [] (by simp) '-' h
  exact absurd hd (by decide)

lemma dropLeadingWs_snoc_nonws {b : Char} (hb : pyIsSpace b = false) :
    ∀ (l : List Char), ∃ s, dropLeadingWs (l ++ [b]) = s ++ [b] := by
  intro l
  induction l with
  | nil =>
    refine ⟨[], ?_⟩
    simp [dropLeadingWs, hb]
  | cons c r ih =>
    simp only [List.cons_append, dropLeadingWs]
    by_cases hc : pyIsSpace c = true
    · rw [if_pos hc]
      exact ih
    · rw [if_neg hc]
      exact ⟨c :: r, rfl⟩

lemma pyStripL_head_nonws {b : Char} (hb : pyIsSpace b = false) (r : List Char) :
    ∃ r2, pyStripL (b :: r) = b :: r2 := by
  unfold pyStripL
  have h1 : dropLeadingWs (b :: r) = b :: r := by
    simp [dropLeadingWs, hb]
  rw [h1, show (b :: r).reverse = r.reverse ++ [b] from by simp]
  rcases dropLeadingWs_snoc_nonws hb r.reverse with ⟨s, hs⟩
  rw [hs]
  exact ⟨s.reverse, by simp⟩

lemma parseUnsignedFloat_bracket {b : Char} (r : List Char)
    (hb : b = '[' ∨ b = '{') : parseUnsignedFloat (b :: r) = none := by
  rcases hb with rfl | rfl <;> rfl

lemma pyFloatOfString_bracket {s : String} {b : Char} {r : List Char}
    (hs : s.data = b :: r) (hb : b = '[' ∨ b = '{') :
    pyFloatOfString s = none := by
  unfold pyFloatOfString
  rw [hs]
  have hbws : pyIsSpace b = false := by rcases hb with rfl | rfl <;> decide
  rcases pyStripL_head_nonws hbws r with ⟨r2, hr2⟩
  rw [hr2]
  by_cases hu : underscoresOk none (b :: r2) = true
  · rw [if_pos hu]
    have hfil : (b :: r2).filter (fun c => decide (c ≠ '_')) =
        b :: r2.filter (fun c => decide (c ≠ '_')) := by
      rw [List.filter_cons]
      rcases hb with rfl | rfl <;> simp
    rw [hfil]
    dsimp only
    have hm : ¬(b = '-') := by rcases hb with rfl | rfl <;> decide
    have hp : ¬(b = '+') := by rcases hb with rfl | rfl <;> decide
    rw [if_neg hm, if_neg hp]
    exact parseUnsignedFloat_bracket _ hb
  · rw [if_neg hu]

lemma pyStr_arr_data (xs : List Json) :
    ∃ r, (pyStr (.arr xs)).data = '[' :: r := by
  show ∃ r, (("[" ++ pyReprList xs ++ "]" : String)).data = '[' :: r
  refine ⟨(pyReprList xs).data ++ [']'], ?_⟩
  simp [String.data_append]

lemma pyStr_obj_data (kvs : List (String × Json)) :
    ∃ r, (pyStr (.obj kvs)).data = '{' :: r := by
  show ∃ r, (("\x7b" ++ pyReprObj kvs ++ "\x7d" : String)).data = '{' :: r
  refine ⟨(pyReprObj kvs).data ++ ['}'], ?_⟩
  simp [String.data_append]

lemma directPrice_neg {s : String} {n : Int}
    (h : directPrice s = .ok (some n)) (hneg : n < 0) : '-' ∈ s.data := by
  unfold directPrice at h
  cases hf : pyFloatOfString s with
  | none =>
    rw [hf] at h
    exact absurd (normalize_price_nonneg h) (by omega)
  | some f =>
    rw [hf] at h
    dsimp only at h
    cases ht : truncFloat f with
    | ok n2 =>
      rw [ht] at h
      cases h
      by_contra hm
      have h2 := truncFloat_nonneg ht (pyFloatOfString_noMinus hf hm)
      omega
    | error e =>
      rw [ht] at h
      cases e with
      | valueError =>
        dsimp only at h
        exact absurd (normalize_price_nonneg h) (by omega)
      | overflowError => cases h
      | attributeError => cases h

/-- A negative `price_yen` can only come from a negative numeric price or a
minus-signed price string. -/
lemma priceFields_some_neg {offers : List (String × Json)}
    {pf : Option Int × String} (h : priceFields offers = .ok pf) {n : Int}
    (hn : pf.1 = some n) (hneg : n < 0) :
    ∃ p, jGet offers "price" = some p ∧
      ((∃ i : Int, p = .num i ∧ i < 0) ∨
       (∃ t : String, p = .str t ∧ '-' ∈ t.data)) := by
  unfold priceFields at h
  cases hj : jGet offers "price" with
  | none =>
    rw [hj] at h
    cases h
    simp at hn
  | some p =>
    rw [hj] at h
    refine ⟨p, rfl, ?_⟩
    have hmain : ∀ {q : Json}, directPrice (pyStr q) = .ok (some n) →
        ((∃ i : Int, q = .num i ∧ i < 0) ∨
         (∃ t : String, q = .str t ∧ '-' ∈ t.data)) ∨
        '-' ∈ (pyStr q).data := by
      intro q hq
      exact Or.inr (directPrice_neg hq hneg)
    cases p with
    | null =>
      dsimp only at h
      cases h
      simp at hn
    | num i =>
      dsimp only at h
      cases hd : directPrice (pyStr (.num i)) with
      | error e => rw [hd] at h; cases h
      | ok o =>
        rw [hd] at h
        cases o with
        | none =>
          dsimp only at h
          cases h
          simp at hn
        | some n2 =>
          dsimp only at h
          cases h
          have hn2 : n2 = n := by simpa using hn
          subst hn2
          have hmem := directPrice_neg hd hneg
          exact Or.inl ⟨i, rfl, pyIntRepr_minus hmem⟩
    | str t =>
      dsimp only at h
      cases hd : directPrice (pyStr (.str t)) with
      | error e => rw [hd] at h; cases h
      | ok o =>
        rw [hd] at h
        cases o with
        | none =>
          dsimp only at h
          cases h
          simp at hn
        | some n2 =>
          dsimp only at h
          cases h
          have hn2 : n2 = n := by simpa using hn
          subst hn2
          exact Or.inr ⟨t, rfl, directPrice_neg hd hneg⟩
    | bool b =>
      dsimp only at h
      cases hd : directPrice (pyStr (.bool b)) with
      | error e => rw [hd] at h; cases h
      | ok o =>
        rw [hd] at h
        cases o with
        | none =>
          dsimp only at h
          cases h
          simp at hn
        | some n2 =>
          dsimp only at h
          cases h
          have hn2 : n2 = n := by simpa using hn
          subst hn2
          have hmem := directPrice_neg hd hneg
          cases b with
          | true => exact absurd hmem (by decide)
          | false => exact absurd hmem (by decide)
    | arr xs =>
      dsimp only at h
      rcases pyStr_arr_data xs with ⟨r, hr⟩
      have hnone : pyFloatOfString (pyStr (.arr xs)) = none :=
        pyFloatOfString_bracket hr (Or.inl rfl)
      cases hd : directPrice (pyStr (.arr xs)) with
      | error e => rw [hd] at h; cases h
      | ok o =>
        rw [hd] at h
        cases o with
        | none =>
          dsimp only at h
          cases h
          simp at hn
        | some n2 =>
          dsimp only at h
          cases h
          have hn2 : n2 = n := by simpa using hn
          subst hn2
          exfalso
          unfold directPrice at hd
          rw [hnone] at hd
          exact absurd (normalize_price_nonneg hd) (by omega)
    | obj kvs =>
      dsimp only at h
      rcases pyStr_obj_data kvs with ⟨r, hr⟩
      have hnone : pyFloatOfString (pyStr (.obj kvs)) = none :=
        pyFloatOfString_bracket hr (Or.inr rfl)
      cases hd : directPrice (pyStr (.obj kvs)) with
      | error e => rw [hd] at h; cases h
      | ok o =>
        rw [hd] at h
        cases o with
        | none =>
          dsimp only at h
          cases h
          simp at hn
        | some n2 =>
          dsimp only at h
          cases h
          have hn2 : n2 = n := by simpa using hn
          subst hn2
          exfalso
          unfold directPrice at hd
          rw [hnone] at hd
          exact absurd (normalize_price_nonneg hd) (by omega)

/-! ## Claim theorems about the two parsing paths -/

lemma urlStrOf_falsy {m : List (String × Json)}
    (h : jGet m "url" = none ∨ jGet m "url" = some .null ∨
      jGet m "url" = some (.str "")) : urlStrOf m = "" := by
  unfold urlStrOf
  rcases h with h | h | h <;> rw [h] <;> rfl

/-- C10: an absent, null or empty-string `url`/`image` field resolves to the
base origin itself (never the empty string); `image_url` is empty exactly
for an empty `image` list; consequently every structured listing has a
non-empty `detail_url` and deduplication keys it by `detail_url`, the
composite key branch being unreachable for structured listings. -/
theorem structured_url_defaults :
    (∀ m : List (String × Json),
      (jGet m "url" = none ∨ jGet m "url" = some .null ∨
        jGet m "url" = some (.str "")) →
      pyUrljoin (urlStrOf m) = .ok BASE_URL) ∧
    (∀ m : List (String × Json),
      (jGet m "image" = none ∨ jGet m "image" = some .null ∨
        jGet m "image" = some (.str "")) →
      imageResOf m = .ok BASE_URL) ∧
    (∀ (m : List (String × Json)) (l : Listing),
      processItem (.obj m) = .ok (some l) →
      (l.image_url = "" ↔ jGet m "image" = some (.arr []))) ∧
    (∀ (loads : String → Option Json) (events : List HtmlEvent)
       (ls : List Listing), parse_json_ld loads events = .ok ls →
       ∀ l ∈ ls, l.detail_url ≠ "" ∧ keyOf l = l.detail_url) := by
  refine ⟨?_, ?_, ?_, ?_⟩
  · intro m h
    rw [urlStrOf_falsy h]
    rfl
  · intro m h
    unfold imageResOf
    rcases h with h | h | h <;> rw [h] <;> rfl
  · intro m l h
    rcases processItem_ok_some h with
      ⟨m2, hm2, _, pf, iu, du, _, him, _, rfl⟩
    injection hm2 with h2
    subst h2
    show iu = "" ↔ _
    unfold imageResOf at him
    cases hj : jGet m "image" with
    | none =>
      rw [hj] at him
      constructor
      · intro hc
        exact absurd hc (pyUrljoin_ok_ne him)
      · intro hc
        cases hc
    | some v =>
      rw [hj] at him
      cases v with
      | arr xs =>
        cases xs with
        | nil =>
          dsimp only at him
          cases him
          simp
        | cons x xr =>
          dsimp only at him
          constructor
          · intro hc
            exact absurd hc (pyUrljoin_ok_ne him)
          · intro hc
            simp at hc
      | null =>
        constructor
        · intro hc
          exact absurd hc (pyUrljoin_ok_ne him)
        · intro hc
          simp at hc
      | bool b =>
        constructor
        · intro hc
          exact absurd hc (pyUrljoin_ok_ne him)
        · intro hc
          simp at hc
      | num n =>
        constructor
        · intro hc
          exact absurd hc (pyUrljoin_ok_ne him)
        · intro hc
          simp at hc
      | str s =>
        constructor
        · intro hc
          exact absurd hc (pyUrljoin_ok_ne him)
        · intro hc
          simp at hc
      | obj kvs =>
        constructor
        · intro hc
          exact absurd hc (pyUrljoin_ok_ne him)
        · intro hc
          simp at hc
  · intro loads events ls h l hl
    have h2 : listingsOfBlocks ((extractBlocks events).filterMap loads) = .ok ls := h
    rcases mem_listingsOfBlocks h2 hl with ⟨j, _, item, _, hpi⟩
    rcases processItem_ok_some hpi with
      ⟨m, _, _, pf, iu, du, _, _, hdu, rfl⟩
    have hne : du ≠ "" := pyUrljoin_ok_ne hdu
    refine ⟨hne, ?_⟩
    unfold keyOf
    rw [if_neg hne]

def demoM10 : List (String × Json) := [("name", Json.str "X")]

/-- Witness for `structured_url_defaults` at a candidate without a `url`
field and a one-listing structured document. -/
theorem structured_url_defaults_witness :
    (jGet demoM10 "url" = none ∨ jGet demoM10 "url" = some .null ∨
      jGet demoM10 "url" = some (.str "")) ∧
    pyUrljoin (urlStrOf demoM10) = .ok BASE_URL := by
  have h : jGet demoM10 "url" = none ∨ jGet demoM10 "url" = some .null ∨
      jGet demoM10 "url" = some (.str "") := Or.inl rfl
  exact ⟨h, structured_url_defaults.1 demoM10 h⟩

/-- C8: every listing from either parsing path carries a non-empty title:
structured candidates with an empty-after-strip name are dropped, fallback
matches with an empty collapsed text are dropped. -/
theorem titles_nonempty :
    (∀ (loads : String → Option Json) (events : List HtmlEvent)
       (ls : List Listing), parse_json_ld loads events = .ok ls →
       ∀ l ∈ ls, l.title ≠ "") ∧
    (∀ (html : String) (ls : List Listing),
       parse_fallback_html html = .ok ls → ∀ l ∈ ls, l.title ≠ "") := by
  constructor
  · intro loads events ls h l hl
    have h2 : listingsOfBlocks ((extractBlocks events).filterMap loads) = .ok ls := h
    rcases mem_listingsOfBlocks h2 hl with ⟨j, _, item, _, hpi⟩
    rcases processItem_ok_some hpi with ⟨m, _, hn, pf, iu, du, _, _, _, rfl⟩
    exact hn
  · intro html ls h l hl
    rcases mem_faBuild h hl with ⟨u, t, _, hf⟩
    exact (fallbackListingOf_ok_some hf).2.1

def ldAttrs : List (String × Option String) := [("type", some "application/ld+json")]

def goodJson : Json :=
  .obj [("name", .str "Honda N-VAN G"),
        ("url", .str "/usedcar/detail/AU123/index.html")]

def demoLoads8 : String → Option Json :=
  fun s => if s = "GOOD" then some goodJson else none

def demoEvents8 : List HtmlEvent :=
  [.startTag "script" ldAttrs, .data "\x7bbad", .endTag "script",
   .startTag "script" ldAttrs, .data "GOOD", .endTag "script"]

def goodListing : Listing :=
  { title := "Honda N-VAN G", price_yen := none, price_label := "",
    location := "", image_url := "https://www.carsensor.net",
    detail_url := "https://www.carsensor.net/usedcar/detail/AU123/index.html" }

/-- Witness for `titles_nonempty` on a concrete two-block document (one
malformed block skipped, one good listing). -/
theorem titles_nonempty_witness :
    parse_json_ld demoLoads8 demoEvents8 = .ok [goodListing] ∧
    ∀ l ∈ [goodListing], l.title ≠ "" := by
  have he : parse_json_ld demoLoads8 demoEvents8 = .ok [goodListing] := by rfl
  exact ⟨he, titles_nonempty.1 demoLoads8 demoEvents8 [goodListing] he⟩

/-- C1 (amended): `parse_json_ld` skips each block whose text fails JSON
decoding — the remaining blocks' listings are produced in document order —
and a candidate's absent fields are defaulted; but it is total only under
the amended safety condition: every candidate processes without an
exception (an `itemListElement` entry whose `item` is not an object raises
`AttributeError`, and an infinite-overflowing price or an unbracketable URL
raise too, see `parse_json_ld_raises`). -/
theorem parse_json_ld_skips_and_defaults :
    (∀ (loads : String → Option Json) (events : List HtmlEvent),
      (∀ j ∈ (extractBlocks events).filterMap loads,
        ∃ ls, listingsOfData j = .ok ls) →
      parse_json_ld loads events =
        .ok (concatListings ((extractBlocks events).filterMap loads))) ∧
    (∀ t : String, pyStrip t ≠ "" →
      processItem (.obj [("name", .str t)]) =
        .ok (some { title := pyStrip t, price_yen := none, price_label := "",
                    location := "", image_url := BASE_URL,
                    detail_url := BASE_URL })) := by
  constructor
  · intro loads events h
    exact listingsOfBlocks_ok h
  · intro t ht
    simp only [processItem]
    rw [show nameStrOf [("name", Json.str t)] = pyStrip t from rfl]
    rw [if_neg ht]
    rfl

def demoLoads1 : String → Option Json :=
  fun s => if s = "GOOD" then some goodJson else none

def demoEvents1 : List HtmlEvent :=
  [.startTag "script" ldAttrs, .data "\x7bbad", .endTag "script",
   .startTag "script" ldAttrs, .data "GOOD", .endTag "script"]

/-- Witness for `parse_json_ld_skips_and_defaults` on a concrete document
with one undecodable and one good block, and a concrete minimal
candidate. -/
theorem parse_json_ld_skips_witness :
    ((∀ j ∈ (extractBlocks demoEvents1).filterMap demoLoads1,
        ∃ ls, listingsOfData j = .ok ls) ∧
      parse_json_ld demoLoads1 demoEvents1 =
        .ok (concatListings ((extractBlocks demoEvents1).filterMap demoLoads1))) ∧
    (pyStrip "  Honda  " ≠ "" ∧
      processItem (.obj [("name", .str "  Honda  ")]) =
        .ok (some { title := pyStrip "  Honda  ", price_yen := none,
                    price_label := "", location := "", image_url := BASE_URL,
                    detail_url := BASE_URL })) := by
  have hp : ∀ j ∈ (extractBlocks demoEvents1).filterMap demoLoads1,
      ∃ ls, listingsOfData j = .ok ls := by
    have he : (extractBlocks demoEvents1).filterMap demoLoads1 = [goodJson] := rfl
    rw [he]
    intro j hj
    have hj2 : j = goodJson := by simpa using hj
    subst hj2
    exact ⟨listingsTotal goodJson, rfl⟩
  refine ⟨⟨hp, parse_json_ld_skips_and_defaults.1 demoLoads1 demoEvents1 hp⟩, ?_, ?_⟩
  · decide
  · exact parse_json_ld_skips_and_defaults.2 "  Honda  " (by decide)

def badListJson : Json := .obj [("itemListElement", .arr [.obj [("item", .num 5)]])]

def badLoads : String → Option Json := fun _ => some badListJson

def badEvents : List HtmlEvent :=
  [.startTag "script" ldAttrs, .data "X", .endTag "script"]

/-- Counterexample to C1 as stated: a structured block whose
`itemListElement` entry carries a non-object `item` makes `parse_json_ld`
raise `AttributeError` (`item.get("name")` on an `int`), so the batch is
aborted rather than the field being defaulted. -/
theorem parse_json_ld_raises :
    parse_json_ld badLoads badEvents = .error .attributeError := rfl

/-- C7: the fallback parser runs exactly when the structured parse yields
zero listings, and on any markup it succeeds with at most 60 listings, each
with a non-empty collapsed title, no price data, empty location and image,
and a `detail_url` resolved from a captured `/usedcar/detail/…` target. -/
theorem fallback_policy :
    (∀ (loads : String → Option Json) (html : String)
       (events : List HtmlEvent) (l : List Listing),
       parse_json_ld loads events = .ok l → l ≠ [] →
       scrape_pipeline loads html events = .ok (dedupe l)) ∧
    (∀ (loads : String → Option Json) (html : String)
       (events : List HtmlEvent) (ls : List Listing),
       parse_json_ld loads events = .ok [] →
       parse_fallback_html html = .ok ls →
       scrape_pipeline loads html events = .ok (dedupe ls)) ∧
    (∀ html : String, ∃ ls, parse_fallback_html html = .ok ls ∧
       ls.length ≤ 60 ∧
       ∀ l ∈ ls, l.title ≠ "" ∧ l.price_yen = none ∧ l.price_label = "" ∧
         l.location = "" ∧ l.image_url = "" ∧
         ∃ u t, listStartsWithCi "/usedcar/detail/".data u = true ∧
           l.title = pyStrip (collapseWs ⟨t⟩) ∧
           pyUrljoin ⟨u⟩ = .ok l.detail_url) := by
  refine ⟨?_, ?_, ?_⟩
  · intro loads html events l h hne
    unfold scrape_pipeline
    rw [h]
    dsimp only
    have hie : l.isEmpty = false := by
      cases l with
      | nil => exact absurd rfl hne
      | cons a t => rfl
    rw [hie]
    rfl
  · intro loads html events ls h hfb
    unfold scrape_pipeline
    rw [h]
    dsimp only
    rw [hfb]
    rfl
  · intro html
    rcases parse_fallback_total html with ⟨ls, hls⟩
    refine ⟨ls, hls, ?_, ?_⟩
    · have := faBuild_length hls (by omega)
      omega
    · intro l hl
      rcases mem_faBuild hls hl with ⟨u, t, hm, hf⟩
      rcases fallbackListingOf_ok_some hf with ⟨ht, hne, hp, hlb, hlo, him, hju⟩
      exact ⟨hne, hp, hlb, hlo, him, u, t, (mem_faScan hm).1, ht, hju⟩

def demoLoads7 : String → Option Json :=
  fun s => if s = "GOOD" then some goodJson else none

def demoEvents7 : List HtmlEvent :=
  [.startTag "script" ldAttrs, .data "GOOD", .endTag "script"]

/-- Witness for `fallback_policy`: with a non-empty structured result the
pipeline ignores the fallback markup entirely. -/
theorem fallback_policy_witness :
    parse_json_ld demoLoads7 demoEvents7 = .ok [goodListing] ∧
    [goodListing] ≠ [] ∧
    scrape_pipeline demoLoads7
      "<a href=\"/usedcar/detail/zzz\">ignored</a>" demoEvents7 =
      .ok (dedupe [goodListing]) := by
  refine ⟨rfl, by simp, ?_⟩
  exact fallback_policy.1 demoLoads7 _ demoEvents7 [goodListing] rfl (by simp)

/-- C3 (amended): `normalize_price` results are always non-negative and the
fallback path never sets a price, so along those routes `price_yen` is
non-negative whenever present; on the structured path a present `price_yen`
is non-negative unless the candidate's `offers.price` is itself a negative
number or a minus-signed numeric string, which `int(float(...))` passes
through (see `parse_json_ld_negative_price`). -/
theorem price_yen_sign :
    (∀ (s : String) (n : Int), normalize_price s = .ok (some n) → 0 ≤ n) ∧
    (∀ (html : String) (ls : List Listing), parse_fallback_html html = .ok ls →
      ∀ l ∈ ls, l.price_yen = none) ∧
    (∀ (loads : String → Option Json) (events : List HtmlEvent)
       (ls : List Listing) (l : Listing) (n : Int),
       parse_json_ld loads events = .ok ls → l ∈ ls →
       l.price_yen = some n → n < 0 →
       ∃ m p, processItem (.obj m) = .ok (some l) ∧
         jGet (offersOf m) "price" = some p ∧
         ((∃ i : Int, p = .num i ∧ i < 0) ∨
          (∃ t : String, p = .str t ∧ '-' ∈ t.data))) := by
  refine ⟨?_, ?_, ?_⟩
  · intro s n h
    exact normalize_price_nonneg h
  · intro html ls h l hl
    rcases mem_faBuild h hl with ⟨u, t, _, hf⟩
    exact (fallbackListingOf_ok_some hf).2.2.1
  · intro loads events ls l n h hl hp hneg
    have h2 : listingsOfBlocks ((extractBlocks events).filterMap loads) = .ok ls := h
    rcases mem_listingsOfBlocks h2 hl with ⟨j, _, item, _, hpi⟩
    rcases processItem_ok_some hpi with ⟨m, hitem, _, pf, iu, du, hpf, _, _, hrec⟩
    have hp2 : pf.1 = some n := by
      rw [hrec] at hp
      exact hp
    rcases priceFields_some_neg hpf hp2 hneg with ⟨p, hjp, hcase⟩
    refine ⟨m, p, ?_, hjp, hcase⟩
    rw [← hitem]
    exact hpi

def fbHtml3 : String := "<a href=\"/usedcar/detail/q1\">Fallback Car</a>"

def fbListing3 : Listing :=
  { title := "Fallback Car", price_yen := none, price_label := "",
    location := "", image_url := "",
    detail_url := "https://www.carsensor.net/usedcar/detail/q1" }

/-- Witness for `price_yen_sign` on a concrete `normalize_price` call and a
concrete fallback document. -/
theorem price_yen_sign_witness :
    (normalize_price "100円" = .ok (some 100) ∧ (0 : Int) ≤ 100) ∧
    (parse_fallback_html fbHtml3 = .ok [fbListing3] ∧
      ∀ l ∈ [fbListing3], l.price_yen = none) := by
  have h1 : normalize_price "100円" = .ok (some 100) := by rfl
  have h2 : parse_fallback_html fbHtml3 = .ok [fbListing3] := by rfl
  exact ⟨⟨h1, price_yen_sign.1 "100円" 100 h1⟩,
         ⟨h2, price_yen_sign.2.1 fbHtml3 [fbListing3] h2⟩⟩

def negJson : Json :=
  .obj [("name", .str "Neg"), ("offers", .obj [("price", .str "-500")])]

def negLoads : String → Option Json := fun _ => some negJson

def negEvents : List HtmlEvent :=
  [.startTag "script" ldAttrs, .data "NEG", .endTag "script"]

def negListing : Listing :=
  { title := "Neg", price_yen := some (-500), price_label := "-500 円",
    location := "", image_url := "https://www.carsensor.net",
    detail_url := "https://www.carsensor.net" }

/-- Counterexample to C3 as stated: the pipeline passes the negative price
string `"-500"` straight through `int(float(...))`, producing a listing
whose `price_yen` is negative. -/
theorem parse_json_ld_negative_price :
    parse_json_ld negLoads negEvents = .ok [negListing] ∧
    negListing.price_yen = some (-500) ∧ (-500 : Int) < 0 := by
  refine ⟨by rfl, rfl, by decide⟩

/-- C2: if `scrape` raises, `main` still builds the payload, with the
exception text as `error`, `count = 0` and empty `items`; on success `error`
is `null`. -/
theorem main_error_containment (e : String) (mp : Option Int)
    (r : Option String) (l : List Listing) :
    (pyMain (.error e) mp r).error = some e ∧
    (pyMain (.error e) mp r).count = 0 ∧
    (pyMain (.error e) mp r).items = [] ∧
    (pyMain (.ok l) mp r).error = none := by
  refine ⟨rfl, ?_, ?_, rfl⟩ <;>
    simp [pyMain, apply_filters_eq_filter]

/-! ## Exactness of the float path on small integer inputs -/

lemma natLog2_unique {n a : Nat} (h1 : 2 ^ a ≤ n) (h2 : n < 2 ^ (a + 1)) :
    natLog2 n = a := by
  have hn : 1 ≤ n := le_trans Nat.one_le_two_pow h1
  have b1 := natLog2_le hn
  have b2 := natLog2_lt hn
  by_contra hne
  rcases Nat.lt_or_ge (natLog2 n) a with hlt | hge
  · have hp : 2 ^ (natLog2 n + 1) ≤ 2 ^ a := Nat.pow_le_pow_right (by norm_num) (by omega)
    omega
  · have ha : a + 1 ≤ natLog2 n := by omega
    have hp : 2 ^ (a + 1) ≤ 2 ^ natLog2 n := Nat.pow_le_pow_right (by norm_num) ha
    omega

lemma natLog2_pow (k : Nat) : natLog2 (2 ^ k) = k := by
  apply natLog2_unique le_rfl
  have hp : (0:Nat) < 2 ^ k := pow_pos (by norm_num) k
  calc (2:Nat) ^ k < 2 ^ k * 2 := by omega
  _ = 2 ^ (k + 1) := by ring

lemma natLog2_mul_pow {M : Nat} (hM : 1 ≤ M) (k : Nat) :
    natLog2 (M * 2 ^ k) = natLog2 M + k := by
  apply natLog2_unique
  · rw [pow_add]
    exact mul_le_mul_of_nonneg_right (natLog2_le hM) (Nat.zero_le _)
  · calc M * 2 ^ k < 2 ^ (natLog2 M + 1) * 2 ^ k :=
      mul_lt_mul_of_pos_right (natLog2_lt hM) (pow_pos (by norm_num) k)
  _ = 2 ^ (natLog2 M + k + 1) := by rw [← pow_add]; congr 1; omega

lemma natLog2_le_52 {M : Nat} (h1 : 1 ≤ M) (h53 : M < 2 ^ 53) : natLog2 M ≤ 52 := by
  by_contra hc
  have h2 : (2:Nat) ^ 53 ≤ 2 ^ natLog2 M := Nat.pow_le_pow_right (by norm_num) (by omega)
  have h3 := natLog2_le h1
  omega

lemma floorLog2Rat_pow2 {M : Nat} (h1 : 1 ≤ M) (k : Nat) :
    floorLog2Rat (M * 2 ^ k) (2 ^ k) = (natLog2 M : Int) := by
  unfold floorLog2Rat
  dsimp only
  rw [natLog2_mul_pow h1 k, natLog2_pow k]
  have hcand : ((natLog2 M + k : Nat) : Int) - (k : Int) = (natLog2 M : Int) := by
    push_cast
    ring
  rw [hcand]
  have hle : le2pow (2 ^ k) (M * 2 ^ k) ((natLog2 M : Int)) = true := by
    unfold le2pow
    rw [if_pos (Int.natCast_nonneg _)]
    rw [Int.toNat_natCast]
    apply decide_eq_true
    calc (2:Nat) ^ k * 2 ^ natLog2 M = 2 ^ natLog2 M * 2 ^ k := by ring
    _ ≤ M * 2 ^ k := mul_le_mul_of_nonneg_right (natLog2_le h1) (Nat.zero_le _)
  rw [if_pos hle]

lemma roundPosRat_pow2 {M : Nat} (h1 : 1 ≤ M) (h53 : M < 2 ^ 53) (k : Nat) :
    roundPosRat (M * 2 ^ k) (2 ^ k) =
      some (M * 2 ^ (52 - natLog2 M), (natLog2 M : Int) - 52) := by
  have hk0 : (0:Nat) < 2 ^ k := pow_pos (by norm_num) k
  have hL52 : natLog2 M ≤ 52 := natLog2_le_52 h1 h53
  have hLlt : M < 2 ^ (natLog2 M + 1) := natLog2_lt h1
  have hsu : M * 2 ^ (52 - natLog2 M) < 2 ^ 53 := by
    calc M * 2 ^ (52 - natLog2 M) < 2 ^ (natLog2 M + 1) * 2 ^ (52 - natLog2 M) :=
      mul_lt_mul_of_pos_right hLlt (pow_pos (by norm_num) _)
    _ = 2 ^ 53 := by rw [← pow_add]; congr 1; omega
  have hsl : 2 ^ 52 ≤ M * 2 ^ (52 - natLog2 M) := by
    calc (2:Nat) ^ 52 = 2 ^ natLog2 M * 2 ^ (52 - natLog2 M) := by rw [← pow_add]; congr 1; omega
    _ ≤ M * 2 ^ (52 - natLog2 M) := mul_le_mul_of_nonneg_right (natLog2_le h1) (Nat.zero_le _)
  have hnum0 : ¬ (M * 2 ^ k = 0) := Nat.mul_ne_zero (by omega) (by omega)
  unfold roundPosRat
  rw [if_neg hnum0]
  dsimp only
  rw [floorLog2Rat_pow2 h1 k]
  rw [if_neg (show ¬ ((natLog2 M : Int) < -1022) by omega)]
  rw [if_pos (show (0:Int) ≤ -((natLog2 M : Int) - 52) by omega)]
  rw [show (-((natLog2 M : Int) - 52)).toNat = 52 - natLog2 M by omega]
  dsimp only
  rw [show M * 2 ^ k * 2 ^ (52 - natLog2 M) = M * 2 ^ (52 - natLog2 M) * 2 ^ k by ring]
  rw [Nat.mul_div_cancel _ hk0, Nat.mul_mod_left]
  rw [if_neg (show ¬ (2 ^ k < 2 * 0) by omega)]
  rw [if_neg (show ¬ (2 * 0 = 2 ^ k) by omega)]
  rw [if_neg (show ¬ ((natLog2 M : Int) - 52 = -1074) by omega)]
  rw [if_neg (show ¬ (M * 2 ^ (52 - natLog2 M) = 2 ^ 53) by omega)]
  dsimp only
  rw [if_neg (show ¬ ((971:Int) < (natLog2 M : Int) - 52) by omega)]

lemma mkFinite_pow2 {M : Nat} (h1 : 1 ≤ M) (h53 : M < 2 ^ 53) (k : Nat) :
    mkFinite false (M * 2 ^ k) (2 ^ k) =
      .finite false (M * 2 ^ (52 - natLog2 M)) ((natLog2 M : Int) - 52) := by
  unfold mkFinite
  rw [roundPosRat_pow2 h1 h53 k]

lemma mkFinite_int {M : Nat} (h1 : 1 ≤ M) (h53 : M < 2 ^ 53) :
    mkFinite false M 1 =
      .finite false (M * 2 ^ (52 - natLog2 M)) ((natLog2 M : Int) - 52) := by
  have h := mkFinite_pow2 h1 h53 0
  simpa using h

lemma truncFloat_pow2 {M : Nat} (h1 : 1 ≤ M) (h53 : M < 2 ^ 53) :
    truncFloat (.finite false (M * 2 ^ (52 - natLog2 M)) ((natLog2 M : Int) - 52)) =
      .ok (M : Int) := by
  have hL52 : natLog2 M ≤ 52 := natLog2_le_52 h1 h53
  unfold truncFloat
  dsimp only
  rw [if_neg Bool.false_ne_true]
  by_cases hexp : (0:Int) ≤ (natLog2 M : Int) - 52
  · rw [if_pos hexp]
    have hL : natLog2 M = 52 := by omega
    rw [hL]
    norm_num
  · rw [if_neg hexp]
    rw [show (-((natLog2 M : Int) - 52)).toNat = 52 - natLog2 M by omega]
    rw [Nat.mul_div_cancel _ (pow_pos (by norm_num) _)]

lemma mulFloat10000_exact {m : Nat} (h1 : 1 ≤ m) (h53 : m * 10000 < 2 ^ 53) :
    mulFloat10000 (mkFinite false m 1) =
      .finite false (m * 10000 * 2 ^ (52 - natLog2 (m * 10000)))
        ((natLog2 (m * 10000) : Int) - 52) := by
  have hm53 : m < 2 ^ 53 := by
    have hle : m ≤ m * 10000 := Nat.le_mul_of_pos_right m (by norm_num)
    omega
  have hL52 : natLog2 m ≤ 52 := natLog2_le_52 h1 hm53
  rw [mkFinite_int h1 hm53]
  unfold mulFloat10000
  dsimp only
  by_cases hexp : (0:Int) ≤ (natLog2 m : Int) - 52
  · rw [if_pos hexp]
    have hL : natLog2 m = 52 := by omega
    rw [hL]
    rw [show (((52:Nat) : Int) - 52).toNat = 0 by omega]
    rw [show m * 2 ^ (52 - 52) * 10000 * 2 ^ 0 = m * 10000 by norm_num]
    exact mkFinite_int (by omega) h53
  · rw [if_neg hexp]
    rw [show (-((natLog2 m : Int) - 52)).toNat = 52 - natLog2 m by omega]
    rw [show m * 2 ^ (52 - natLog2 m) * 10000 = m * 10000 * 2 ^ (52 - natLog2 m) by ring]
    exact mkFinite_pow2 (by omega) h53 (52 - natLog2 m)

lemma truncMulFloat_exact {m : Nat} (h1 : 1 ≤ m) (h53 : m * 10000 < 2 ^ 53) :
    truncFloat (mulFloat10000 (mkFinite false m 1)) = .ok ((m * 10000 : Nat) : Int) := by
  rw [mulFloat10000_exact h1 h53]
  exact truncFloat_pow2 (by omega) h53

/-! ## Parsing an all-digit numeral through `float` -/

lemma digitCh_toNat {c : Char} (h : isDigitCh c = true) :
    48 ≤ c.toNat ∧ c.toNat ≤ 57 := by
  unfold isDigitCh at h
  rw [Bool.and_eq_true, decide_eq_true_eq, decide_eq_true_eq] at h
  obtain ⟨h1, h2⟩ := h
  rw [Char.le_def] at h1 h2
  exact ⟨h1, h2⟩

lemma digit_not_space {c : Char} (h : isDigitCh c = true) : pyIsSpace c = false := by
  obtain ⟨h1, h2⟩ := digitCh_toNat h
  by_contra hsp
  rw [Bool.not_eq_false] at hsp
  unfold pyIsSpace at hsp
  simp only [Bool.or_eq_true, Bool.and_eq_true, decide_eq_true_eq, or_assoc] at hsp
  rcases hsp with hs|hs|hs|hs|hs|hs|hs|hs|hs|hs|hs|hs|hs|⟨hs,-⟩|hs|hs|hs|hs|hs
  all_goals first
    | (subst hs; exact absurd h (by decide))
    | (rw [Char.le_def] at hs; exact absurd (show 8192 ≤ c.toNat from hs) (by omega))

lemma digit_facts {c : Char} (h : isDigitCh c = true) :
    c ≠ '-' ∧ c ≠ '+' ∧ c ≠ '_' ∧ Char.toLower c = c := by
  refine ⟨?_, ?_, ?_, ?_⟩
  · intro hc; rw [hc] at h; exact absurd h (by decide)
  · intro hc; rw [hc] at h; exact absurd h (by decide)
  · intro hc; rw [hc] at h; exact absurd h (by decide)
  · obtain ⟨h1, h2⟩ := digitCh_toNat h
    unfold Char.toLower
    dsimp only
    rw [if_neg (by omega)]

lemma digit_toLower_ne {c : Char} (h : isDigitCh c = true) {d : Char}
    (hd : isDigitCh d = false) : Char.toLower c ≠ d := by
  rw [(digit_facts h).2.2.2]
  intro hc
  rw [hc] at h
  simp [h] at hd

lemma ciIs_digit_false {c : Char} (r : List Char) (h : isDigitCh c = true)
    {pat : List Char} {p : Char} {ps : List Char} (hpat : pat = p :: ps)
    (hp : isDigitCh p = false) : ciIs (c :: r) pat = false := by
  subst hpat
  unfold ciIs
  apply decide_eq_false
  intro heq
  rw [List.map_cons] at heq
  injection heq with hh _
  exact digit_toLower_ne h hp hh

lemma underscoresOk_nous : ∀ (l : List Char) (prev : Option Char), '_' ∉ l →
    underscoresOk prev l = true := by
  intro l
  induction l with
  | nil => intro prev _; rfl
  | cons c r ih =>
    intro prev hm
    unfold underscoresOk
    rw [if_neg (by intro hc; apply hm; rw [← hc]; exact List.mem_cons_self c r)]
    exact ih (some c) (fun hx => hm (List.mem_cons_of_mem _ hx))

lemma dropLeadingWs_nows {l : List Char} (h : ∀ c ∈ l, pyIsSpace c = false) :
    dropLeadingWs l = l := by
  cases l with
  | nil => rfl
  | cons c r =>
    unfold dropLeadingWs
    rw [if_neg (by simp [h c (List.mem_cons_self c r)])]

lemma pyStripL_nows {l : List Char} (h : ∀ c ∈ l, pyIsSpace c = false) :
    pyStripL l = l := by
  unfold pyStripL
  rw [dropLeadingWs_nows h]
  rw [dropLeadingWs_nows (fun c hc => h c (List.mem_reverse.mp hc))]
  exact List.reverse_reverse l

lemma takeDigits_all {l : List Char} (h : ∀ c ∈ l, isDigitCh c = true) :
    takeDigits l = (l, []) := by
  induction l with
  | nil => rfl
  | cons c r ih =>
    unfold takeDigits
    rw [if_pos (h c (List.mem_cons_self c r))]
    rw [ih (fun x hx => h x (List.mem_cons_of_mem c hx))]

lemma parseDecimal_digits {g : List Char} (hd : ∀ c ∈ g, isDigitCh c = true)
    (hne : g ≠ []) : parseDecimal g = some (digitsVal g, 0) := by
  unfold parseDecimal
  rw [takeDigits_all hd]
  dsimp only
  rw [if_neg (by simp [List.isEmpty_iff, hne])]
  simp

lemma parseUnsignedFloat_digits {g : List Char} (hd : ∀ c ∈ g, isDigitCh c = true)
    (hne : g ≠ []) :
    parseUnsignedFloat g = some (floatOfDecimal false (digitsVal g) 0) := by
  obtain ⟨c, r, rfl⟩ : ∃ c r, g = c :: r := by
    cases g with
    | nil => exact absurd rfl hne
    | cons c r => exact ⟨c, r, rfl⟩
  have hc := hd c (List.mem_cons_self c r)
  unfold parseUnsignedFloat
  rw [if_neg ?hi]
  case hi =>
    rw [ciIs_digit_false r hc (show "inf".data = 'i' :: ['n', 'f'] from rfl) (by decide)]
    rw [ciIs_digit_false r hc
      (show "infinity".data = 'i' :: ['n', 'f', 'i', 'n', 'i', 't', 'y'] from rfl) (by decide)]
    simp
  rw [if_neg ?hn]
  case hn =>
    rw [ciIs_digit_false r hc (show "nan".data = 'n' :: ['a', 'n'] from rfl) (by decide)]
    simp
  rw [parseDecimal_digits hd hne]
  rfl

lemma pyFloatOfString_digits {g : List Char} (hd : ∀ c ∈ g, isDigitCh c = true)
    (hne : g ≠ []) :
    pyFloatOfString ⟨g⟩ = some (floatOfDecimal false (digitsVal g) 0) := by
  unfold pyFloatOfString
  have hstrip : pyStripL (String.mk g).data = g :=
    pyStripL_nows (fun c hc => digit_not_space (hd c hc))
  rw [hstrip]
  rw [if_pos (underscoresOk_nous g none
    (fun hm => absurd (hd '_' hm) (by decide)))]
  have hfilter : g.filter (fun c => c ≠ '_') = g := by
    apply List.filter_eq_self.mpr
    intro a ha
    rw [decide_eq_true_eq]
    exact (digit_facts (hd a ha)).2.2.1
  rw [hfilter]
  obtain ⟨c, r, rfl⟩ : ∃ c r, g = c :: r := by
    cases g with
    | nil => exact absurd rfl hne
    | cons c r => exact ⟨c, r, rfl⟩
  dsimp only
  have hfc := digit_facts (hd c (List.mem_cons_self c r))
  rw [if_neg hfc.1, if_neg hfc.2.1]
  exact parseUnsignedFloat_digits hd hne

lemma floatOfDecimal_int {m : Nat} (h : m ≠ 0) :
    floatOfDecimal false m 0 = mkFinite false m 1 := by
  unfold floatOfDecimal
  rw [if_neg h]
  rw [if_neg (show ¬ ((310:Int) ≤ 0) by omega)]
  rw [if_neg (show ¬ ((0:Int) + (decDigits m : Int) ≤ -324) by omega)]
  rw [if_pos (le_refl (0:Int))]
  norm_num

lemma digitsVal_aux_lt : ∀ (l : List Char) (a : Nat), (∀ c ∈ l, isDigitCh c = true) →
    l.foldl (fun a c => 10 * a + (c.toNat - 48)) a < (a + 1) * 10 ^ l.length := by
  intro l
  induction l with
  | nil => intro a _; simp
  | cons c r ih =>
    intro a h
    simp only [List.foldl_cons, List.length_cons]
    have hc := digitCh_toNat (h c (List.mem_cons_self c r))
    have h3 := ih (10 * a + (c.toNat - 48)) (fun x hx => h x (List.mem_cons_of_mem c hx))
    have h1 : 10 * a + (c.toNat - 48) + 1 ≤ (a + 1) * 10 := by omega
    calc r.foldl (fun a c => 10 * a + (c.toNat - 48)) (10 * a + (c.toNat - 48))
        < (10 * a + (c.toNat - 48) + 1) * 10 ^ r.length := h3
    _ ≤ (a + 1) * 10 * 10 ^ r.length := Nat.mul_le_mul_right _ h1
    _ = (a + 1) * 10 ^ (r.length + 1) := by ring

lemma digitsVal_lt {g : List Char} (hd : ∀ c ∈ g, isDigitCh c = true) :
    digitsVal g < 10 ^ g.length := by
  have h := digitsVal_aux_lt g 0 hd
  simpa using h

lemma normalize_price_digits {s : String} {g : List Char}
    (hm : searchMan (s.data.filter (fun c => c ≠ ',')) = some g)
    (hd : ∀ c ∈ g, isDigitCh c = true) (hlen : g.length ≤ 11) (hne : g ≠ []) :
    normalize_price s = .ok (some ((digitsVal g : Int) * 10000)) := by
  unfold normalize_price
  dsimp only
  rw [hm]
  dsimp only
  rw [pyFloatOfString_digits hd hne]
  dsimp only
  by_cases h0 : digitsVal g = 0
  · rw [h0]
    rfl
  · have h1 : 1 ≤ digitsVal g := by omega
    have h11 : digitsVal g < 10 ^ 11 :=
      lt_of_lt_of_le (digitsVal_lt hd) (Nat.pow_le_pow_right (by norm_num) hlen)
    have h11n : digitsVal g < 100000000000 := by
      have he : (10:Nat) ^ 11 = 100000000000 := by norm_num
      omega
    have h53 : digitsVal g * 10000 < 2 ^ 53 := by
      have he : (2:Nat) ^ 53 = 9007199254740992 := by norm_num
      omega
    rw [floatOfDecimal_int h0]
    rw [truncMulFloat_exact h1 h53]
    simp [Except.map, Nat.cast_mul]

/-- C4 (amended): after comma stripping, `normalize_price` tries the
ten-thousand-yen pattern first: an integer numeral of at most 11 digits
there yields exactly the numeral times 10000 (the binary64 round trip is
exact below `2^53`); otherwise a match of the bare-yen pattern yields the
matched integer itself; no match of either pattern yields `None`; and the
three specification examples hold.  A decimal 万円 numeral, however, is
computed by binary floating point and can fall short of the exact product
(see `normalize_price_float_loss`). -/
theorem normalize_price_spec :
    (∀ (s : String) (g : List Char),
       searchMan (s.data.filter (fun c => c ≠ ',')) = some g →
       (∀ c ∈ g, isDigitCh c = true) → g.length ≤ 11 → g ≠ [] →
       normalize_price s = .ok (some ((digitsVal g : Int) * 10000))) ∧
    (∀ (s : String) (g : List Char),
       searchMan (s.data.filter (fun c => c ≠ ',')) = none →
       searchEn (s.data.filter (fun c => c ≠ ',')) = some g →
       normalize_price s = .ok (some ((digitsVal g : Int)))) ∧
    (∀ s : String,
       searchMan (s.data.filter (fun c => c ≠ ',')) = none →
       searchEn (s.data.filter (fun c => c ≠ ',')) = none →
       normalize_price s = .ok none) ∧
    normalize_price "1,480,000円" = .ok (some 1480000) ∧
    normalize_price "98.5万円" = .ok (some 985000) ∧
    normalize_price "no price" = .ok none := by
  refine ⟨?_, ?_, ?_, by rfl, by rfl, by rfl⟩
  · intro s g hm hd hlen hne
    exact normalize_price_digits hm hd hlen hne
  · intro s g hm he
    unfold normalize_price
    dsimp only
    rw [hm]
    dsimp only
    rw [he]
  · intro s hm he
    unfold normalize_price
    dsimp only
    rw [hm]
    dsimp only
    rw [he]

/-- Counterexample to C4 as claimed: for `"0.57万円"` the matched numeral
times 10000 is exactly 5700, but `int(float("0.57") * 10000)` evaluates to
5699 because `0.57` is not exactly representable in binary64. -/
theorem normalize_price_float_loss :
    normalize_price "0.57万円" = .ok (some 5699) ∧ 57 * 10000 / 100 = 5700 :=
  ⟨by rfl, by norm_num⟩

/-- Witness for `normalize_price_spec` at concrete inputs. -/
theorem normalize_price_spec_witness :
    normalize_price "30万円" = .ok (some ((digitsVal "30".data : Int) * 10000)) ∧
    normalize_price "500円" = .ok (some ((digitsVal "500".data : Int))) ∧
    normalize_price "x" = .ok none :=
  ⟨normalize_price_spec.1 "30万円" "30".data (by rfl) (by decide) (by decide)
     (by decide),
   normalize_price_spec.2.1 "500円" "500".data (by rfl) (by rfl),
   normalize_price_spec.2.2.1 "x" (by rfl) (by rfl)⟩

end FindCar
